import Mathlib

/-!
Shallow embedding of the contact-histogram engine of
`scripts/structure/contact_hist_deprecated.py` (function `contact_hist`
and the normalization step of the surrounding script).

Histograms are lists of natural numbers (the source uses `numpy`
`uint32` arrays; the counts involved here are far below the wrap-around
range, so they are modelled as `Nat`).  The spatial neighbor query
`mdt.select.atoms_around_point` is an external collaborator of the
program; it is supplied to the embedding as a function from the index of
a reference atom to the list of indices (into the selection group) of
the selection atoms within the cutoff.
-/

namespace ContactHistDeprecated

/-- Apply `f` to the element at index `n`; identity when `n` is out of
range (the source only performs such updates in bounds). -/
def modifyIdx {α : Type} : List α → Nat → (α → α) → List α
  | [], _, _ => []
  | a :: l, 0, f => f a :: l
  | a :: l, n + 1, f => a :: modifyIdx l n f

/-- Map with the position of each element, starting at offset `k`. -/
def mapIdxFrom {α β : Type} (f : Nat → α → β) : Nat → List α → List β
  | _, [] => []
  | k, a :: l => f k a :: mapIdxFrom f (k + 1) l

/-- Modelled from the spec: `mdt.nph.extend` (numpy helper living outside
`src/`): "ensure capacity >= k, zero-filling new slots"; growth is
monotonic and never truncates. -/
def extend (l : List Nat) (n : Nat) : List Nat :=
  if n ≤ l.length then l else l ++ List.replicate (n - l.length) 0

/-- Maximum of a list of naturals (`np.max`, with 0 for the empty list;
the source only takes maxima of non-empty data). -/
def maxL (l : List Nat) : Nat := l.foldr max 0

/-- Insert `x` into a sorted duplicate-free list, keeping it sorted and
duplicate-free (building block for `np.unique`). -/
def sortedInsert (x : Nat) : List Nat → List Nat
  | [] => [x]
  | y :: l => if x < y then x :: y :: l else if x = y then y :: l else y :: sortedInsert x l

/-- Sorted list of the distinct values of `l` (`np.unique`). -/
def uniqueSorted (l : List Nat) : List Nat := l.foldr sortedInsert []

/-- Position where `x` would be inserted in the sorted duplicate-free
array of the distinct values of `l`, i.e. the number of distinct values
of `l` smaller than `x`.  For `x ∈ l` this is the value of
`np.searchsorted(np.unique(l), x)`. -/
def searchRank (l : List Nat) (x : Nat) : Nat :=
  ((uniqueSorted l).filter (fun y => y < x)).length

/-- Occurrence counts of the sorted distinct values of `l`
(`np.unique(l, return_counts=True)[1]`, aligned with `uniqueSorted l`). -/
def countsOf (l : List Nat) : List Nat := (uniqueSorted l).map (fun u => l.count u)

/-- Buffered numpy fancy-indexing increment `a[idxs] += 1`: every index
in the set `idxs` is incremented exactly once, duplicates in `idxs`
notwithstanding (gather, add one, scatter). -/
def fancyIncr (row : List Nat) (idxs : List Nat) : List Nat :=
  mapIdxFrom (fun i v => if i ∈ idxs then v + 1 else v) 0 row

/-- Fancy-indexing assignment `a[idxs] = False` on a boolean row. -/
def maskOff (row : List Bool) (idxs : List Nat) : List Bool :=
  mapIdxFrom (fun i v => if i ∈ idxs then false else v) 0 row

/-- Unbuffered `np.add.at(a, idxs, vals)`: add `vals[t]` at index
`idxs[t]` for every position `t`, duplicate indices accumulating. -/
def addAt (row : List Nat) (ps : List (Nat × Nat)) : List Nat :=
  ps.foldl (fun r p => modifyIdx r p.1 (· + p.2)) row

/-- Unbuffered `np.add.at(a, idxs, 1)`. -/
def addAt1 (row : List Nat) (idxs : List Nat) : List Nat :=
  idxs.foldl (fun r i => modifyIdx r i (· + 1)) row

/-- Grow the histogram so that index `i` exists, then increment it
(`h = mdt.nph.extend(h, i+1); h[i] += 1`). -/
def extIncr (h : List Nat) (i : Nat) : List Nat :=
  modifyIdx (extend h (i + 1)) i (· + 1)

/-- Occurrence histogram `np.bincount`: entry `i` is the number of
occurrences of `i` in `l`, for `i` up to the maximum of `l`. -/
def bincount (l : List Nat) : List Nat :=
  if l = [] then [] else (List.range (maxL l + 1)).map (fun i => l.count i)

/-- Set the first entry to zero (`a[0] = 0`). -/
def zeroHead : List Nat → List Nat
  | [] => []
  | _ :: t => 0 :: t

/-- Does the row contain the value `n`? -/
def anyEq (row : List Nat) (n : Nat) : Bool := row.any (fun v => v == n)

/-- Does the row contain a nonzero value? -/
def anyPos (row : List Nat) : Bool := row.any (fun v => v != 0)

/-- Maximum entry of a matrix (`np.max` over a 2-d array). -/
def matMax (M : List (List Nat)) : Nat := M.foldr (fun row m => max (maxL row) m) 0

/-- Threshold scan of a pair-count matrix (source lines 516-541): entry
`n` (for `n` from 1 to the matrix maximum) is the number of rows that
contain the value `n` somewhere; entry 0 is the number of reference
residues minus the number of rows containing any nonzero value. -/
def sameHist (M : List (List Nat)) (nres : Nat) : List Nat :=
  (nres - (M.filter anyPos).length) ::
    (List.range (matMax M)).map (fun k => (M.filter (fun row => anyEq row (k + 1))).length)

/-- An MDAnalysis atom group, reduced to what the engine reads: the
residue id of each atom, in atom order. -/
structure AtomGroup where
  resids : List Nat

/-- Number of atoms of the group (`ag.n_atoms`). -/
def nAtoms (g : AtomGroup) : Nat := g.resids.length

/-- Number of residues of the group (`ag.n_residues`, the number of
distinct residue ids). -/
def nResidues (g : AtomGroup) : Nat := (uniqueSorted g.resids).length

/-- Entry of a boolean matrix, `false` out of range. -/
def getB2 (M : List (List Bool)) (r s : Nat) : Bool := (M.getD r []).getD s false

/-- The mutable per-frame state of the accumulation loop of
`contact_hist` (source lines 449-463): the growable atom-level
histograms, the fixed-length per-residue count vectors, the two dense
pair-count matrices and the two "unused" masks. -/
structure HState where
  refatm_selatm : List Nat
  refatm_diff_selres : List Nat
  refatm_same_selres : List Nat
  refres_diff_selatm : List Nat
  refres_selatm_tot : List Nat
  refres_diff_selres : List Nat
  refatm_selres_pair : List Nat
  refres_selatm_pair : List (List Nat)
  refres_selres_pair : List (List Nat)
  selatm_unused : List (List Bool)
  selres_unused : List (List Bool)

/-- Initial loop state (source lines 449-461). -/
def initState (ref sel : AtomGroup) (emc : Nat) : HState :=
  { refatm_selatm := List.replicate emc 0
    refatm_diff_selres := List.replicate emc 0
    refatm_same_selres := List.replicate emc 0
    refres_diff_selatm := List.replicate (nResidues ref) 0
    refres_selatm_tot := List.replicate (nResidues ref) 0
    refres_diff_selres := List.replicate (nResidues ref) 0
    refatm_selres_pair := List.replicate emc 0
    refres_selatm_pair := List.replicate (nResidues ref) (List.replicate (nAtoms sel) 0)
    refres_selres_pair := List.replicate (nResidues ref) (List.replicate (nResidues sel) 0)
    selatm_unused := List.replicate (nResidues ref) (List.replicate (nAtoms sel) true)
    selres_unused := List.replicate (nResidues ref) (List.replicate (nResidues sel) true) }

/-- Update of `refatm_same_selres` and `refatm_selres_pair` for one
reference atom (source lines 477-489), given the multiplicity list
`counts` of the selection residues touched by the atom: if no residue is
touched, bin 0 of the "same" histogram is incremented; otherwise both
arrays grow to hold the largest multiplicity, every multiplicity value
present in `counts` increments the "same" histogram once (buffered fancy
indexing), and `np.add.at` adds one to the pair histogram per touched
residue. -/
def atmSame (h pair counts : List Nat) : List Nat × List Nat :=
  if counts = [] then (modifyIdx h 0 (· + 1), pair)
  else (fancyIncr (extend h (maxL counts + 1)) counts,
        addAt1 (extend pair (maxL counts + 1)) counts)

/-- One iteration of the loop over the reference atoms (source lines
465-512).  `a.1` is the residue id of the reference atom and `a.2` the
list of indices (into `sel`) of the selection atoms within the cutoff,
as returned by the external neighbor query.  `selatmids` is the value of
`np.intersect1d(sel.ids, sel_near_ref.ids, return_indices=True)[1]`: the
set of positions of the near atoms within `sel` (its order is immaterial
to all of its uses).  `selresids2` is the value of
`np.intersect1d(unique_selresids, selresids, return_indices=True)[1]`:
the positions of the touched selection residues among the distinct
selection residue ids, aligned with the multiplicity list `counts`. -/
def processAtom (sel : AtomGroup) (refResids : List Nat) (S : HState)
    (a : Nat × List Nat) : HState :=
  let near := a.2
  let nearResids := near.map (fun j => sel.resids.getD j 0)
  let counts := countsOf nearResids
  let r := searchRank refResids a.1
  let selatmids := uniqueSorted near
  let selresids2 := (uniqueSorted nearResids).map (fun u => searchRank sel.resids u)
  { refatm_selatm := extIncr S.refatm_selatm near.length
    refatm_diff_selres := extIncr S.refatm_diff_selres (uniqueSorted nearResids).length
    refatm_same_selres := (atmSame S.refatm_same_selres S.refatm_selres_pair counts).1
    refatm_selres_pair := (atmSame S.refatm_same_selres S.refatm_selres_pair counts).2
    refres_selatm_tot := modifyIdx S.refres_selatm_tot r (· + near.length)
    refres_diff_selatm := modifyIdx S.refres_diff_selatm r
      (· + (selatmids.filter (fun s => getB2 S.selatm_unused r s)).length)
    selatm_unused := modifyIdx S.selatm_unused r (fun row => maskOff row selatmids)
    refres_selatm_pair := modifyIdx S.refres_selatm_pair r (fun row => fancyIncr row selatmids)
    refres_diff_selres := modifyIdx S.refres_diff_selres r
      (· + (selresids2.filter (fun s => getB2 S.selres_unused r s)).length)
    selres_unused := modifyIdx S.selres_unused r (fun row => maskOff row selresids2)
    refres_selres_pair := modifyIdx S.refres_selres_pair r
      (fun row => addAt row (selresids2.zip counts)) }

/-- The reference atoms in order, each paired with its residue id and
its neighbor list. -/
def atomsOf (ref : AtomGroup) (nbr : Nat → List Nat) : List (Nat × List Nat) :=
  (List.range (nAtoms ref)).map (fun i => (ref.resids.getD i 0, nbr i))

/-- The loop over the reference atoms (source lines 465-512). -/
def runLoop (sel : AtomGroup) (refResids : List Nat) (atoms : List (Nat × List Nat))
    (S : HState) : HState :=
  atoms.foldl (processAtom sel refResids) S

/-- The eleven histograms returned by `contact_hist`, in source order. -/
structure ContactHist where
  refatm_selatm : List Nat
  refatm_diff_selres : List Nat
  refatm_same_selres : List Nat
  refres_diff_selatm : List Nat
  refres_same_selatm : List Nat
  refres_selatm_tot : List Nat
  refres_diff_selres : List Nat
  refres_same_selres : List Nat
  refatm_selres_pair : List Nat
  refres_selatm_pair : List Nat
  refres_selres_pair : List Nat

/-- Bincount of `refres_diff_selatm` (source line 543). -/
def post_diff_sa (S : HState) : List Nat := bincount S.refres_diff_selatm

/-- Bincount of `refres_selatm_tot` (source line 545). -/
def post_tot_sa (S : HState) : List Nat := bincount S.refres_selatm_tot

/-- Bincount of `refres_diff_selres` (source line 547). -/
def post_diff_sr (S : HState) : List Nat := bincount S.refres_diff_selres

/-- Bincount of the flattened refres-selatm matrix with bin 0 forced to
zero (source lines 549-551). -/
def post_pair_sa (S : HState) : List Nat := zeroHead (bincount S.refres_selatm_pair.flatten)

/-- Bincount of the flattened refres-selres matrix with bin 0 forced to
zero (source lines 552-554). -/
def post_pair_sr (S : HState) : List Nat := zeroHead (bincount S.refres_selres_pair.flatten)

/-- Common output length of the eleven histograms (source lines
556-566). -/
def finalLen (ref : AtomGroup) (S : HState) : Nat :=
  maxL [S.refatm_selatm.length, S.refatm_diff_selres.length,
        S.refatm_same_selres.length, (post_diff_sa S).length,
        (sameHist S.refres_selatm_pair (nResidues ref)).length,
        (post_tot_sa S).length, (post_diff_sr S).length,
        (sameHist S.refres_selres_pair (nResidues ref)).length,
        S.refatm_selres_pair.length, (post_pair_sa S).length, (post_pair_sr S).length]

/-- Post-loop processing (source lines 516-577): threshold scans of the
two matrices, bincounts of the per-residue vectors and of the flattened
matrices, zeroing of bin 0 of the two residue pair histograms, and
zero-padding of all eleven histograms to a common length. -/
def finalize (ref : AtomGroup) (S : HState) : ContactHist :=
  { refatm_selatm := extend S.refatm_selatm (finalLen ref S)
    refatm_diff_selres := extend S.refatm_diff_selres (finalLen ref S)
    refatm_same_selres := extend S.refatm_same_selres (finalLen ref S)
    refres_diff_selatm := extend (post_diff_sa S) (finalLen ref S)
    refres_same_selatm := extend (sameHist S.refres_selatm_pair (nResidues ref)) (finalLen ref S)
    refres_selatm_tot := extend (post_tot_sa S) (finalLen ref S)
    refres_diff_selres := extend (post_diff_sr S) (finalLen ref S)
    refres_same_selres := extend (sameHist S.refres_selres_pair (nResidues ref)) (finalLen ref S)
    refatm_selres_pair := extend S.refatm_selres_pair (finalLen ref S)
    refres_selatm_pair := extend (post_pair_sa S) (finalLen ref S)
    refres_selres_pair := extend (post_pair_sr S) (finalLen ref S) }

/-- All eleven histograms equal to `h` (the two early-return paths). -/
def constHist (a r p : List Nat) : ContactHist :=
  { refatm_selatm := a, refatm_diff_selres := a, refatm_same_selres := a
    refres_diff_selatm := r, refres_same_selatm := r, refres_selatm_tot := r
    refres_diff_selres := r, refres_same_selres := r
    refatm_selres_pair := p, refres_selatm_pair := p, refres_selres_pair := p }

/-- The `contact_hist` function (source lines 437-577 and 843-853).
`nbr` stands for the external spatial neighbor query
`mdt.select.atoms_around_point`, giving for each reference atom the
indices of the selection atoms within the cutoff; the engine never
computes distances itself, so only the sign test on the cutoff is
modelled.  The first component collects the `warnings.warn` messages
emitted by the call. -/
def contact_hist (ref sel : AtomGroup) (nbr : Nat → List Nat) (cutoff : Int)
    (expected_max_contacts : Int) : List String × ContactHist :=
  let warns : List String :=
    if cutoff ≤ 0 then ["RuntimeWarning: cutoff is equal to or less than zero."] else []
  let emc : Nat := if expected_max_contacts ≤ 0 then 16 else expected_max_contacts.toNat
  if nAtoms ref = 0 then (warns, constHist [0] [0] [0])
  else if nAtoms sel = 0 ∨ cutoff ≤ 0 then
    (warns, constHist [nAtoms ref] [nResidues ref] [0])
  else
    (warns, finalize ref (runLoop sel ref.resids (atomsOf ref nbr) (initState ref sel emc)))

/-- Value of the normalization step: Python floats modelled as exact
rationals plus the IEEE non-finite values; only division can turn finite
operands into a non-finite result. -/
inductive FVal where
  | num : Rat → FVal
  | inf : FVal
  | ninf : FVal
  | nan : FVal
deriving DecidableEq

/-- Is the value finite? -/
def FVal.isFinite : FVal → Bool
  | FVal.num _ => true
  | _ => false

/-- IEEE division: a finite value divided by zero is nan (for 0/0) or a
signed infinity; numpy emits a warning on it but raises no exception. -/
def fdiv : FVal → FVal → FVal
  | FVal.num a, FVal.num b =>
      if b = 0 then (if a = 0 then FVal.nan else if 0 < a then FVal.inf else FVal.ninf)
      else FVal.num (a / b)
  | FVal.nan, _ => FVal.nan
  | _, FVal.nan => FVal.nan
  | FVal.num _, FVal.inf => FVal.num 0
  | FVal.num _, FVal.ninf => FVal.num 0
  | FVal.inf, _ => FVal.inf
  | FVal.ninf, _ => FVal.ninf

/-- IEEE subtraction (only the finite case is exercised here). -/
def fsub : FVal → FVal → FVal
  | FVal.num a, FVal.num b => FVal.num (a - b)
  | FVal.inf, FVal.num _ => FVal.inf
  | FVal.ninf, FVal.num _ => FVal.ninf
  | FVal.num _, FVal.inf => FVal.ninf
  | FVal.num _, FVal.ninf => FVal.inf
  | _, _ => FVal.nan

/-- First moment `np.sum(hist * np.arange(len(hist)))` of a probability
histogram (source lines 1099, 1106, 1113 and 1117). -/
def firstMoment (hist : List Rat) : Rat :=
  (mapIdxFrom (fun i p => (i : Rat) * p) 0 hist).sum

/-- Bound-average coordination number of the normalization step (source
lines 1102 and 1107): the first moment of the histogram divided by
`1 - hist[0]`, the fraction of bound reference units. -/
def avCoordBound (hist : List Rat) : FVal :=
  fdiv (FVal.num (firstMoment hist)) (fsub (FVal.num 1) (FVal.num (hist.getD 0 0)))

/-- Reference group of the spec's end-to-end example: two atoms in two
singleton residues. -/
def exRef : AtomGroup := ⟨[1, 2]⟩

/-- Selection group of the spec's end-to-end example: atoms a and b in
one residue, atom c in another. -/
def exSel : AtomGroup := ⟨[5, 5, 6]⟩

/-- Neighbor query of the spec's end-to-end example: reference atom 1
(index 0) contacts atoms a and b (both in the first selection residue),
reference atom 2 contacts nothing. -/
def exNbr : Nat → List Nat := fun i => if i = 0 then [0, 1] else []

/-- Validity of the external neighbor query: each returned neighbor list
is duplicate-free (an atom group contains each atom at most once) and
refers to atoms of the selection group. -/
def ValidNbr (sel : AtomGroup) (nbr : Nat → List Nat) : Prop :=
  ∀ i, (nbr i).Nodup ∧ ∀ j ∈ nbr i, j < nAtoms sel

/-- Two loop states that agree on the zero-extended views of the four
growable atom-level histograms (and have non-empty "same" histograms)
and agree exactly on everything else: the relation preserved when only
the initial capacity hint differs. -/
structure ViewRel (S T : HState) : Prop where
  selatm : ∀ i, S.refatm_selatm.getD i 0 = T.refatm_selatm.getD i 0
  diffres : ∀ i, S.refatm_diff_selres.getD i 0 = T.refatm_diff_selres.getD i 0
  sameres : ∀ i, S.refatm_same_selres.getD i 0 = T.refatm_same_selres.getD i 0
  pairres : ∀ i, S.refatm_selres_pair.getD i 0 = T.refatm_selres_pair.getD i 0
  slen : 0 < S.refatm_same_selres.length
  tlen : 0 < T.refatm_same_selres.length
  rda : S.refres_diff_selatm = T.refres_diff_selatm
  rst : S.refres_selatm_tot = T.refres_selatm_tot
  rdr : S.refres_diff_selres = T.refres_diff_selres
  msa : S.refres_selatm_pair = T.refres_selatm_pair
  msr : S.refres_selres_pair = T.refres_selres_pair
  ua : S.selatm_unused = T.selatm_unused
  ur : S.selres_unused = T.selres_unused

/-- Two results that agree on the zero-extended views of all eleven
histograms: equality up to trailing zero padding. -/
structure SameView (A B : ContactHist) : Prop where
  f1 : ∀ i, A.refatm_selatm.getD i 0 = B.refatm_selatm.getD i 0
  f2 : ∀ i, A.refatm_diff_selres.getD i 0 = B.refatm_diff_selres.getD i 0
  f3 : ∀ i, A.refatm_same_selres.getD i 0 = B.refatm_same_selres.getD i 0
  f4 : ∀ i, A.refres_diff_selatm.getD i 0 = B.refres_diff_selatm.getD i 0
  f5 : ∀ i, A.refres_same_selatm.getD i 0 = B.refres_same_selatm.getD i 0
  f6 : ∀ i, A.refres_selatm_tot.getD i 0 = B.refres_selatm_tot.getD i 0
  f7 : ∀ i, A.refres_diff_selres.getD i 0 = B.refres_diff_selres.getD i 0
  f8 : ∀ i, A.refres_same_selres.getD i 0 = B.refres_same_selres.getD i 0
  f9 : ∀ i, A.refatm_selres_pair.getD i 0 = B.refatm_selres_pair.getD i 0
  f10 : ∀ i, A.refres_selatm_pair.getD i 0 = B.refres_selatm_pair.getD i 0
  f11 : ∀ i, A.refres_selres_pair.getD i 0 = B.refres_selres_pair.getD i 0

/-- Spec-side formulation of the threshold scan: the number of reference
residues (row indices) having at least one partner column (among the `w`
columns) whose bond count is exactly `n`. -/
def specSameCount (M : List (List Nat)) (nres w n : Nat) : Nat :=
  ((List.range nres).filter
    (fun r => decide (∃ s, s < w ∧ (M.getD r []).getD s 0 = n))).length

/-- Spec-side count of the reference residues having at least one
nonzero entry in their row. -/
def specBoundCount (M : List (List Nat)) (nres w : Nat) : Nat :=
  ((List.range nres).filter
    (fun r => decide (∃ s, s < w ∧ (M.getD r []).getD s 0 ≠ 0))).length

/-- Loop state of a `contact_hist` call on the normal path (the local
variables after the loop over the reference atoms). -/
def loopStateOf (ref sel : AtomGroup) (nbr : Nat → List Nat) (e : Int) : HState :=
  runLoop sel ref.resids (atomsOf ref nbr)
    (initState ref sel (if e ≤ 0 then 16 else e.toNat))

theorem length_modifyIdx {α : Type} (l : List α) (n : Nat) (f : α → α) :
    (modifyIdx l n f).length = l.length := by
  induction l generalizing n with
  | nil => rfl
  | cons a l ih =>
    cases n with
    | zero => rfl
    | succ n => simp [modifyIdx, ih]

theorem getD_modifyIdx {α : Type} (l : List α) (n : Nat) (f : α → α) (i : Nat) (d : α) :
    (modifyIdx l n f).getD i d =
      if i = n ∧ n < l.length then f (l.getD n d) else l.getD i d := by
  induction l generalizing n i with
  | nil => simp [modifyIdx]
  | cons a l ih =>
    cases n with
    | zero =>
      cases i with
      | zero => simp [modifyIdx]
      | succ i => simp [modifyIdx]
    | succ n =>
      cases i with
      | zero => simp [modifyIdx]
      | succ i =>
        simp only [modifyIdx, List.getD_cons_succ, ih, List.length_cons]
        have h : (i = n ∧ n < l.length) ↔ (i + 1 = n + 1 ∧ n + 1 < l.length + 1) := by omega
        rw [if_congr h rfl rfl]

theorem getD_modifyIdx_ne {α : Type} (l : List α) (n : Nat) (f : α → α) (i : Nat) (d : α)
    (h : i ≠ n) : (modifyIdx l n f).getD i d = l.getD i d := by
  rw [getD_modifyIdx]
  simp [h]

theorem sum_modifyIdx_add (l : List Nat) (n k : Nat) (h : n < l.length) :
    (modifyIdx l n (· + k)).sum = l.sum + k := by
  induction l generalizing n with
  | nil => simp at h
  | cons a l ih =>
    cases n with
    | zero => simp [modifyIdx]; omega
    | succ n =>
      simp only [modifyIdx, List.sum_cons]
      rw [ih n (by simpa using h)]
      omega

theorem getD_replicate_self {α : Type} (k : Nat) (x : α) (i : Nat) (d : α) :
    (List.replicate k x).getD i d = if i < k then x else d := by
  induction k generalizing i with
  | zero => simp
  | succ k ih =>
    cases i with
    | zero => simp [List.replicate_succ]
    | succ i =>
      rw [List.replicate_succ, List.getD_cons_succ, ih]
      simp

theorem getD_append_left {α : Type} (l l' : List α) (i : Nat) (d : α) (h : i < l.length) :
    (l ++ l').getD i d = l.getD i d := by
  induction l generalizing i with
  | nil => simp at h
  | cons a l ih =>
    cases i with
    | zero => simp
    | succ i => simpa using ih i (by simpa using h)

theorem getD_append_right {α : Type} (l l' : List α) (i : Nat) (d : α) (h : l.length ≤ i) :
    (l ++ l').getD i d = l'.getD (i - l.length) d := by
  induction l generalizing i with
  | nil => simp
  | cons a l ih =>
    cases i with
    | zero => simp at h
    | succ i =>
      simp only [List.cons_append, List.getD_cons_succ, List.length_cons]
      rw [ih i (by simpa using h)]
      congr 1
      omega

theorem length_extend (l : List Nat) (n : Nat) :
    (extend l n).length = max l.length n := by
  unfold extend
  by_cases h : n ≤ l.length
  · simp [h, Nat.max_eq_left h]
  · simp only [h, if_false, List.length_append, List.length_replicate]
    omega

theorem getD_extend (l : List Nat) (n i : Nat) :
    (extend l n).getD i 0 = l.getD i 0 := by
  unfold extend
  by_cases h : n ≤ l.length
  · simp [h]
  · simp only [h, if_false]
    by_cases hi : i < l.length
    · rw [getD_append_left _ _ _ _ hi]
    · rw [getD_append_right _ _ _ _ (by omega), getD_replicate_self]
      rw [List.getD_eq_default]
      · simp
      · omega

theorem sum_extend (l : List Nat) (n : Nat) : (extend l n).sum = l.sum := by
  unfold extend
  by_cases h : n ≤ l.length
  · simp [h]
  · simp [h, List.sum_replicate]

theorem le_maxL (l : List Nat) (x : Nat) (h : x ∈ l) : x ≤ maxL l := by
  induction l with
  | nil => simp at h
  | cons a l ih =>
    rcases List.mem_cons.1 h with h | h
    · simp [maxL, h, Nat.le_max_left]
    · exact le_trans (ih h) (by simp [maxL, Nat.le_max_right])

theorem getD_mapIdxFrom {α β : Type} (f : Nat → α → β) (k : Nat) (l : List α) (i : Nat)
    (d : α) (e : β) (h : i < l.length) :
    (mapIdxFrom f k l).getD i e = f (k + i) (l.getD i d) := by
  induction l generalizing k i with
  | nil => simp at h
  | cons a l ih =>
    cases i with
    | zero => simp [mapIdxFrom]
    | succ i =>
      simp only [mapIdxFrom, List.getD_cons_succ]
      rw [ih (k + 1) i (by simpa using h)]
      congr 1
      omega

theorem length_mapIdxFrom {α β : Type} (f : Nat → α → β) (k : Nat) (l : List α) :
    (mapIdxFrom f k l).length = l.length := by
  induction l generalizing k with
  | nil => rfl
  | cons a l ih => simp [mapIdxFrom, ih]

theorem getD_eq_default_of_le {α : Type} (l : List α) (i : Nat) (d : α)
    (h : l.length ≤ i) : l.getD i d = d := by
  rw [List.getD_eq_default]
  omega

theorem eq_of_getD (l₁ l₂ : List Nat) (hlen : l₁.length = l₂.length)
    (h : ∀ i, l₁.getD i 0 = l₂.getD i 0) : l₁ = l₂ := by
  induction l₁ generalizing l₂ with
  | nil =>
    cases l₂ with
    | nil => rfl
    | cons b l₂ => simp at hlen
  | cons a l₁ ih =>
    cases l₂ with
    | nil => simp at hlen
    | cons b l₂ =>
      have h0 := h 0
      simp only [List.getD_cons_zero] at h0
      subst h0
      have : l₁ = l₂ := ih l₂ (by simpa using hlen) (fun i => by simpa using h (i + 1))
      rw [this]

/-- C1: the spec's expected `refatm_selatm = [1,0,2]` and
`refatm_same_selres = [1,1,0]` are both false on the code: bin 2 of
`refatm_selatm` is 1 (one reference atom with two contacts), and
`refatm_same_selres` has bin 2 equal to 1 and bin 1 equal to 0 (the only
observed per-residue multiplicity is 2). -/
theorem c1_example_counterexample :
    (contact_hist exRef exSel exNbr 1 16).2.refatm_selatm.getD 2 0 = 1 ∧
    (contact_hist exRef exSel exNbr 1 16).2.refatm_same_selres.getD 1 0 = 0 ∧
    (contact_hist exRef exSel exNbr 1 16).2.refatm_same_selres.getD 2 0 = 1 := by
  decide

/-- C1 (amended): on the end-to-end example, `contact_hist` produces
`refatm_selatm = [1,0,1]`, `refatm_diff_selres = [1,1,0]`,
`refatm_same_selres = [1,0,1]` and `refatm_selres_pair` with entry 1 at
index 2 and 0 everywhere else, up to trailing zero padding. -/
theorem c1_example_amended :
    (contact_hist exRef exSel exNbr 1 16).2.refatm_selatm = [1, 0, 1] ++ List.replicate 13 0 ∧
    (contact_hist exRef exSel exNbr 1 16).2.refatm_diff_selres = [1, 1, 0] ++ List.replicate 13 0 ∧
    (contact_hist exRef exSel exNbr 1 16).2.refatm_same_selres = [1, 0, 1] ++ List.replicate 13 0 ∧
    (contact_hist exRef exSel exNbr 1 16).2.refatm_selres_pair = [0, 0, 1] ++ List.replicate 13 0 := by
  decide

/-- C6: with a non-empty reference group, a non-positive cutoff or an
empty selection group makes `contact_hist` return the trivial
everything-in-bin-0 result (the three atom-level histograms `[n_ref_atoms]`,
the five residue-level histograms `[n_ref_residues]`, the three pair
histograms `[0]`), with a diagnostic warning when the cutoff is
non-positive; no exception is raised (the function is total and yields
this value). -/
theorem c6_trivial_path (ref sel : AtomGroup) (nbr : Nat → List Nat) (cutoff e : Int)
    (href : nAtoms ref ≠ 0) (h : cutoff ≤ 0 ∨ nAtoms sel = 0) :
    (contact_hist ref sel nbr cutoff e).2 = constHist [nAtoms ref] [nResidues ref] [0] ∧
    ((contact_hist ref sel nbr cutoff e).2.refatm_selatm = [nAtoms ref] ∧
     (contact_hist ref sel nbr cutoff e).2.refatm_diff_selres = [nAtoms ref] ∧
     (contact_hist ref sel nbr cutoff e).2.refatm_same_selres = [nAtoms ref] ∧
     (contact_hist ref sel nbr cutoff e).2.refres_diff_selatm = [nResidues ref] ∧
     (contact_hist ref sel nbr cutoff e).2.refres_same_selatm = [nResidues ref] ∧
     (contact_hist ref sel nbr cutoff e).2.refres_selatm_tot = [nResidues ref] ∧
     (contact_hist ref sel nbr cutoff e).2.refres_diff_selres = [nResidues ref] ∧
     (contact_hist ref sel nbr cutoff e).2.refres_same_selres = [nResidues ref] ∧
     (contact_hist ref sel nbr cutoff e).2.refatm_selres_pair = [0] ∧
     (contact_hist ref sel nbr cutoff e).2.refres_selatm_pair = [0] ∧
     (contact_hist ref sel nbr cutoff e).2.refres_selres_pair = [0]) ∧
    (cutoff ≤ 0 → (contact_hist ref sel nbr cutoff e).1 ≠ []) := by
  have h2 : nAtoms sel = 0 ∨ cutoff ≤ 0 := h.symm
  unfold contact_hist
  rw [if_neg href, if_pos h2]
  refine ⟨rfl, ⟨rfl, rfl, rfl, rfl, rfl, rfl, rfl, rfl, rfl, rfl, rfl⟩, ?_⟩
  intro hc
  simp [hc]

/-- Witness for C6 at a concrete input. -/
theorem c6_trivial_path_witness :
    (contact_hist exRef exSel exNbr (-2) 16).2 = constHist [2] [2] [0] ∧
    (contact_hist exRef exSel exNbr (-2) 16).1 ≠ [] := by
  have h := c6_trivial_path exRef exSel exNbr (-2) 16 (by decide) (Or.inl (by decide))
  exact ⟨h.1, h.2.2 (by decide)⟩

/-- C9: in the normalization step, when no reference unit is bound
(`P(0) = 1`), the bound-average coordination number divides by
`1 - P(0) = 0` and yields a defined non-finite value (nan or a signed
infinity) instead of raising an exception. -/
theorem c9_unbound_divide (hist : List Rat) (h0 : hist.getD 0 0 = 1) :
    (avCoordBound hist).isFinite = false := by
  have hs : fsub (FVal.num 1) (FVal.num (hist.getD 0 0)) = FVal.num 0 := by
    rw [h0]
    show FVal.num (1 - 1) = FVal.num 0
    norm_num
  unfold avCoordBound
  rw [hs]
  show (if (0 : Rat) = 0 then
          (if firstMoment hist = 0 then FVal.nan
           else if 0 < firstMoment hist then FVal.inf else FVal.ninf)
        else FVal.num (firstMoment hist / 0)).isFinite = false
  rw [if_pos rfl]
  split_ifs <;> rfl

/-- Witness for C9: the all-unbound histogram `[1, 0]`. -/
theorem c9_unbound_divide_witness :
    ([(1 : Rat), 0].getD 0 0 = 1) ∧ (avCoordBound [(1 : Rat), 0]).isFinite = false :=
  ⟨rfl, c9_unbound_divide [(1 : Rat), 0] rfl⟩

theorem mem_sortedInsert (x z : Nat) (l : List Nat) :
    z ∈ sortedInsert x l ↔ z = x ∨ z ∈ l := by
  induction l with
  | nil => simp [sortedInsert]
  | cons y l ih =>
    unfold sortedInsert
    by_cases h1 : x < y
    · simp [h1]
    · by_cases h2 : x = y
      · subst h2
        rw [if_neg h1, if_pos rfl]
        constructor
        · intro h; exact Or.inr h
        · rintro (h | h)
          · rw [h]; exact List.mem_cons_self x l
          · exact h
      · simp only [h1, if_false, h2, List.mem_cons, ih]
        tauto

theorem mem_uniqueSorted (l : List Nat) (z : Nat) : z ∈ uniqueSorted l ↔ z ∈ l := by
  induction l with
  | nil => simp [uniqueSorted]
  | cons a l ih =>
    show z ∈ sortedInsert a (uniqueSorted l) ↔ _
    rw [mem_sortedInsert, ih]
    simp

theorem uniqueSorted_nil_iff (l : List Nat) : uniqueSorted l = [] ↔ l = [] := by
  cases l with
  | nil => simp [uniqueSorted]
  | cons a l =>
    constructor
    · intro h
      have hm : a ∈ uniqueSorted (a :: l) := (mem_uniqueSorted _ _).2 (by simp)
      rw [h] at hm
      exact absurd hm (List.not_mem_nil a)
    · intro h
      exact absurd h (List.cons_ne_nil a l)

theorem sortedInsert_perm_of_not_mem (x : Nat) (l : List Nat) (h : x ∉ l) :
    (sortedInsert x l).Perm (x :: l) := by
  induction l with
  | nil => simp [sortedInsert]
  | cons y l ih =>
    unfold sortedInsert
    by_cases h1 : x < y
    · simp [h1]
    · have h2 : x ≠ y := fun he => h (by simp [he])
      simp only [h1, if_false, h2]
      have hx : x ∉ l := fun hm => h (by simp [hm])
      exact (List.Perm.cons y (ih hx)).trans (List.Perm.swap x y l)

theorem uniqueSorted_perm_of_nodup (l : List Nat) (h : l.Nodup) :
    (uniqueSorted l).Perm l := by
  induction l with
  | nil => simp [uniqueSorted]
  | cons a l ih =>
    have hnd := List.nodup_cons.1 h
    show (sortedInsert a (uniqueSorted l)).Perm (a :: l)
    have hna : a ∉ uniqueSorted l := fun hm => hnd.1 ((mem_uniqueSorted _ _).1 hm)
    exact (sortedInsert_perm_of_not_mem a _ hna).trans (List.Perm.cons a (ih hnd.2))

theorem length_uniqueSorted_of_nodup (l : List Nat) (h : l.Nodup) :
    (uniqueSorted l).length = l.length :=
  (uniqueSorted_perm_of_nodup l h).length_eq

theorem count_pos_of_mem (x : Nat) (l : List Nat) (h : x ∈ l) : 0 < l.count x := by
  induction l with
  | nil => simp at h
  | cons a l ih =>
    rcases List.mem_cons.1 h with h | h
    · subst h
      rw [List.count_cons_self]
      omega
    · have := ih h
      rw [List.count_cons]
      omega

theorem countsOf_pos (l : List Nat) (c : Nat) (h : c ∈ countsOf l) : 0 < c := by
  unfold countsOf at h
  rcases List.mem_map.1 h with ⟨u, hu, he⟩
  subst he
  exact count_pos_of_mem u l ((mem_uniqueSorted l u).1 hu)

theorem countsOf_nil_iff (l : List Nat) : countsOf l = [] ↔ l = [] := by
  unfold countsOf
  rw [List.map_eq_nil_iff, uniqueSorted_nil_iff]

theorem length_filter_le_of_imp (l : List Nat) (p q : Nat → Bool)
    (h : ∀ x, p x = true → q x = true) :
    (l.filter p).length ≤ (l.filter q).length := by
  induction l with
  | nil => simp
  | cons a l ih =>
    by_cases hp : p a = true
    · rw [List.filter_cons_of_pos hp, List.filter_cons_of_pos (h a hp)]
      simpa using ih
    · rw [List.filter_cons_of_neg (by simpa using hp)]
      by_cases hq : q a = true
      · rw [List.filter_cons_of_pos hq]
        exact le_trans ih (by simp)
      · rw [List.filter_cons_of_neg (by simpa using hq)]
        exact ih

theorem filter_lt_length_lt_of_mem (L : List Nat) (x : Nat) (h : x ∈ L) :
    (L.filter (fun y => y < x)).length < L.length := by
  induction L with
  | nil => simp at h
  | cons a L ih =>
    by_cases ha : a < x
    · rw [List.filter_cons_of_pos (by simpa using ha)]
      rcases List.mem_cons.1 h with he | hm
      · omega
      · have := ih hm
        simp only [List.length_cons]
        omega
    · rw [List.filter_cons_of_neg (by simpa using ha)]
      rcases List.mem_cons.1 h with he | hm
      · subst he
        have := List.length_filter_le (fun y => decide (y < x)) L
        simp only [List.length_cons]
        omega
      · have := ih hm
        simp only [List.length_cons]
        omega

theorem searchRank_lt_of_mem (l : List Nat) (x : Nat) (h : x ∈ l) :
    searchRank l x < (uniqueSorted l).length :=
  filter_lt_length_lt_of_mem _ x ((mem_uniqueSorted l x).2 h)

theorem filter_lt_length_lt_of_lt (L : List Nat) (x y : Nat) (hx : x ∈ L) (hxy : x < y) :
    (L.filter (fun z => z < x)).length < (L.filter (fun z => z < y)).length := by
  induction L with
  | nil => simp at hx
  | cons a L ih =>
    have hmono := length_filter_le_of_imp L (fun z => z < x) (fun z => z < y)
      (fun z hz => by simp at hz ⊢; omega)
    rcases List.mem_cons.1 hx with he | hm
    · subst he
      rw [List.filter_cons_of_neg (by simp), List.filter_cons_of_pos (by simpa using hxy)]
      simp only [List.length_cons]
      omega
    · by_cases hax : a < x
      · rw [List.filter_cons_of_pos (by simpa using hax),
          List.filter_cons_of_pos (by simp; omega)]
        simpa using ih hm
      · rw [List.filter_cons_of_neg (by simpa using hax)]
        by_cases hay : a < y
        · rw [List.filter_cons_of_pos (by simpa using hay)]
          have := ih hm
          simp only [List.length_cons]
          omega
        · rw [List.filter_cons_of_neg (by simpa using hay)]
          exact ih hm

theorem searchRank_lt_searchRank (l : List Nat) (x y : Nat) (hx : x ∈ l) (hxy : x < y) :
    searchRank l x < searchRank l y :=
  filter_lt_length_lt_of_lt _ x y ((mem_uniqueSorted l x).2 hx) hxy

theorem searchRank_injOn (l : List Nat) (x y : Nat) (hx : x ∈ l) (hy : y ∈ l)
    (hne : x ≠ y) : searchRank l x ≠ searchRank l y := by
  rcases Nat.lt_or_ge x y with h | h
  · exact Nat.ne_of_lt (searchRank_lt_searchRank l x y hx h)
  · have : y < x := by omega
    exact (Nat.ne_of_lt (searchRank_lt_searchRank l y x hy this)).symm

theorem sum_map_add (L : List Nat) (f g : Nat → Nat) :
    (L.map (fun i => f i + g i)).sum = (L.map f).sum + (L.map g).sum := by
  induction L with
  | nil => rfl
  | cons a L ih =>
    simp only [List.map_cons, List.sum_cons, ih]
    omega

theorem sum_indicator_range (n a : Nat) :
    ((List.range n).map (fun i => if a = i then 1 else 0)).sum = if a < n then 1 else 0 := by
  induction n with
  | zero => simp
  | succ n ih =>
    rw [List.range_succ, List.map_append, List.sum_append, ih]
    by_cases h : a < n
    · have h1 : a < n + 1 := by omega
      have h2 : a ≠ n := by omega
      simp [h, h1, h2]
    · by_cases h2 : a = n
      · subst h2
        simp [h]
      · have h3 : ¬ a < n + 1 := by omega
        simp [h, h2, h3]

theorem sum_map_count_range (l : List Nat) (n : Nat) (h : ∀ x ∈ l, x < n) :
    ((List.range n).map (fun i => l.count i)).sum = l.length := by
  induction l with
  | nil =>
    rw [List.length_nil]
    apply List.sum_eq_zero
    intro x hx
    rcases List.mem_map.1 hx with ⟨i, _, he⟩
    simp [← he]
  | cons a l ih =>
    have hmap : (List.range n).map (fun i => (a :: l).count i) =
        (List.range n).map (fun i => l.count i + (if a = i then 1 else 0)) := by
      apply List.map_congr_left
      intro i _
      rw [List.count_cons]
      simp
    rw [hmap, sum_map_add, ih (fun x hx => h x (by simp [hx])),
      sum_indicator_range, if_pos (h a (by simp))]
    simp

theorem sum_bincount (l : List Nat) (h : l ≠ []) : (bincount l).sum = l.length := by
  unfold bincount
  rw [if_neg h]
  exact sum_map_count_range l (maxL l + 1) (fun x hx => by
    have := le_maxL l x hx
    omega)

theorem count_eq_zero_of_gt_maxL (l : List Nat) (k : Nat) (h : maxL l < k) :
    l.count k = 0 := by
  rw [List.count_eq_zero]
  intro hm
  have := le_maxL l k hm
  omega

theorem getD_map_range (m : Nat) (f : Nat → Nat) (k : Nat) :
    ((List.range m).map f).getD k 0 = if k < m then f k else 0 := by
  induction m with
  | zero => simp
  | succ m ih =>
    rw [List.range_succ, List.map_append]
    by_cases h : k < m
    · rw [getD_append_left _ _ _ _ (by simpa using h), ih]
      have h1 : k < m + 1 := by omega
      simp [h, h1]
    · rw [getD_append_right _ _ _ _ (by simpa using h)]
      simp only [List.length_map, List.length_range]
      by_cases h2 : k = m
      · subst h2
        simp
      · have h3 : ¬ k < m + 1 := by omega
        rw [if_neg h3]
        apply getD_eq_default_of_le
        simp
        omega

theorem getD_bincount (l : List Nat) (h : l ≠ []) (k : Nat) :
    (bincount l).getD k 0 = l.count k := by
  unfold bincount
  rw [if_neg h, getD_map_range]
  by_cases hk : k < maxL l + 1
  · simp [hk]
  · rw [if_neg hk, count_eq_zero_of_gt_maxL l k (by omega)]

theorem getD_fancyIncr (row idxs : List Nat) (i : Nat) :
    (fancyIncr row idxs).getD i 0 =
      if i < row.length then
        (if i ∈ idxs then row.getD i 0 + 1 else row.getD i 0)
      else 0 := by
  unfold fancyIncr
  by_cases h : i < row.length
  · rw [getD_mapIdxFrom _ 0 row i 0 0 h]
    simp [h]
  · rw [if_neg h, getD_eq_default_of_le]
    rw [length_mapIdxFrom]
    omega

theorem length_fancyIncr (row idxs : List Nat) : (fancyIncr row idxs).length = row.length :=
  length_mapIdxFrom _ 0 row

theorem length_maskOff (row : List Bool) (idxs : List Nat) :
    (maskOff row idxs).length = row.length :=
  length_mapIdxFrom _ 0 row

theorem getD_maskOff (row : List Bool) (idxs : List Nat) (s : Nat) (h : s < row.length) :
    (maskOff row idxs).getD s false = if s ∈ idxs then false else row.getD s false := by
  unfold maskOff
  rw [getD_mapIdxFrom _ 0 row s false false h]
  simp

theorem length_addAt (row : List Nat) (ps : List (Nat × Nat)) :
    (addAt row ps).length = row.length := by
  induction ps generalizing row with
  | nil => rfl
  | cons p ps ih =>
    show (addAt (modifyIdx row p.1 (· + p.2)) ps).length = row.length
    rw [ih, length_modifyIdx]

theorem length_addAt1 (row idxs : List Nat) : (addAt1 row idxs).length = row.length := by
  induction idxs generalizing row with
  | nil => rfl
  | cons i idxs ih =>
    show (addAt1 (modifyIdx row i (· + 1)) idxs).length = row.length
    rw [ih, length_modifyIdx]

theorem getD_addAt1 (row idxs : List Nat) (k : Nat)
    (h : ∀ i ∈ idxs, i < row.length) :
    (addAt1 row idxs).getD k 0 = row.getD k 0 + idxs.count k := by
  induction idxs generalizing row with
  | nil => simp [addAt1]
  | cons i idxs ih =>
    show (addAt1 (modifyIdx row i (· + 1)) idxs).getD k 0 = _
    rw [ih _ (fun j hj => by rw [length_modifyIdx]; exact h j (by simp [hj]))]
    rw [getD_modifyIdx, List.count_cons]
    by_cases hk : k = i
    · subst hk
      rw [if_pos ⟨rfl, h k (by simp)⟩]
      simp
      omega
    · rw [if_neg (by tauto)]
      have hik : i ≠ k := fun he => hk he.symm
      simp [hik]

theorem getD_addAt1_zero (row idxs : List Nat) (h : ∀ i ∈ idxs, i ≠ 0) :
    (addAt1 row idxs).getD 0 0 = row.getD 0 0 := by
  induction idxs generalizing row with
  | nil => rfl
  | cons i idxs ih =>
    show (addAt1 (modifyIdx row i (· + 1)) idxs).getD 0 0 = _
    rw [ih _ (fun j hj => h j (by simp [hj])),
      getD_modifyIdx_ne _ _ _ _ _ (fun he => h i (by simp) he.symm)]

theorem sum_extIncr (h : List Nat) (i : Nat) : (extIncr h i).sum = h.sum + 1 := by
  unfold extIncr
  rw [sum_modifyIdx_add, sum_extend]
  rw [length_extend]
  omega

theorem getD_extIncr (h : List Nat) (i j : Nat) :
    (extIncr h i).getD j 0 = h.getD j 0 + (if j = i then 1 else 0) := by
  unfold extIncr
  rw [getD_modifyIdx]
  have hi : i < (extend h (i + 1)).length := by
    rw [length_extend]
    omega
  by_cases hj : j = i
  · rw [if_pos ⟨hj, hi⟩, if_pos hj, hj, getD_extend]
  · rw [if_neg (by tauto), if_neg hj, getD_extend]
    omega

theorem length_extIncr (h : List Nat) (i : Nat) :
    (extIncr h i).length = max h.length (i + 1) := by
  unfold extIncr
  rw [length_modifyIdx, length_extend]

theorem le_length_extIncr (h : List Nat) (i : Nat) : h.length ≤ (extIncr h i).length := by
  rw [length_extIncr]
  omega

/-- Effect of one atom on `refatm_same_selres` (the first component of
`atmSame`): when the multiplicity list is non-empty every bin whose
index occurs in it gains exactly one count. -/
theorem getD_atmSame_fst_of_ne (hh pair counts : List Nat) (hc : counts ≠ []) (m : Nat) :
    (atmSame hh pair counts).1.getD m 0 = hh.getD m 0 + (if m ∈ counts then 1 else 0) := by
  unfold atmSame
  rw [if_neg hc, getD_fancyIncr]
  by_cases hmem : m ∈ counts
  · have hm1 : m ≤ maxL counts := le_maxL counts m hmem
    have hlt : m < (extend hh (maxL counts + 1)).length := by
      rw [length_extend]
      omega
    rw [if_pos hlt, getD_extend]
    simp [hmem]
  · by_cases hlt : m < (extend hh (maxL counts + 1)).length
    · rw [if_pos hlt, getD_extend]
      simp [hmem]
    · rw [if_neg hlt]
      rw [length_extend] at hlt
      rw [getD_eq_default_of_le hh m 0 (by omega)]
      simp [hmem]

/-- Effect of one atom on `refatm_same_selres` when the neighbor set is
empty: bin 0 gains one count (the source increments without extending;
the array is never empty on the paths taken). -/
theorem getD_atmSame_fst_nil (hh pair : List Nat) (hlen : 0 < hh.length) (m : Nat) :
    (atmSame hh pair []).1.getD m 0 = hh.getD m 0 + (if m = 0 then 1 else 0) := by
  unfold atmSame
  rw [if_pos rfl, getD_modifyIdx]
  by_cases hm : m = 0
  · rw [if_pos ⟨hm, hlen⟩, if_pos hm, hm]
  · rw [if_neg (by tauto), if_neg hm]
    omega

theorem getD_atmSame_fst_le (hh pair counts : List Nat) (m : Nat) :
    (atmSame hh pair counts).1.getD m 0 ≤ hh.getD m 0 + 1 := by
  by_cases hc : counts = []
  · subst hc
    unfold atmSame
    rw [if_pos rfl, getD_modifyIdx]
    by_cases h : m = 0 ∧ 0 < hh.length
    · rw [if_pos h]
      rcases h with ⟨hm, _⟩
      rw [hm]
    · rw [if_neg h]
      omega
  · rw [getD_atmSame_fst_of_ne hh pair counts hc]
    by_cases hmem : m ∈ counts <;> simp [hmem]

theorem length_atmSame_fst (hh pair counts : List Nat) :
    hh.length ≤ (atmSame hh pair counts).1.length := by
  unfold atmSame
  by_cases hc : counts = []
  · rw [if_pos hc]
    rw [length_modifyIdx]
  · rw [if_neg hc]
    rw [length_fancyIncr, length_extend]
    omega

theorem getD_atmSame_snd_zero (hh pair counts : List Nat)
    (h : ∀ c ∈ counts, c ≠ 0) :
    (atmSame hh pair counts).2.getD 0 0 = pair.getD 0 0 := by
  unfold atmSame
  by_cases hc : counts = []
  · rw [if_pos hc]
  · rw [if_neg hc]
    show (addAt1 (extend pair (maxL counts + 1)) counts).getD 0 0 = _
    rw [getD_addAt1_zero _ _ h, getD_extend]

theorem modifyIdx_forall {α : Type} (M : List α) (r : Nat) (f : α → α) (P : α → Prop)
    (hM : ∀ x ∈ M, P x) (hf : ∀ x, P x → P (f x)) :
    ∀ x ∈ modifyIdx M r f, P x := by
  induction M generalizing r with
  | nil => simp [modifyIdx]
  | cons a M ih =>
    cases r with
    | zero =>
      intro x hx
      rcases List.mem_cons.1 hx with he | hm
      · rw [he]
        exact hf a (hM a (List.mem_cons_self a M))
      · exact hM x (List.mem_cons_of_mem a hm)
    | succ r =>
      intro x hx
      rcases List.mem_cons.1 hx with he | hm
      · rw [he]
        exact hM a (List.mem_cons_self a M)
      · exact ih r (fun y hy => hM y (List.mem_cons_of_mem a hy)) x hm

theorem processAtom_selatm (sel : AtomGroup) (rr : List Nat) (S : HState)
    (a : Nat × List Nat) :
    (processAtom sel rr S a).refatm_selatm = extIncr S.refatm_selatm a.2.length := rfl

theorem processAtom_diff_selres (sel : AtomGroup) (rr : List Nat) (S : HState)
    (a : Nat × List Nat) :
    (processAtom sel rr S a).refatm_diff_selres =
      extIncr S.refatm_diff_selres
        (uniqueSorted (a.2.map (fun j => sel.resids.getD j 0))).length := rfl

theorem processAtom_same_selres (sel : AtomGroup) (rr : List Nat) (S : HState)
    (a : Nat × List Nat) :
    (processAtom sel rr S a).refatm_same_selres =
      (atmSame S.refatm_same_selres S.refatm_selres_pair
        (countsOf (a.2.map (fun j => sel.resids.getD j 0)))).1 := rfl

theorem processAtom_selres_pair (sel : AtomGroup) (rr : List Nat) (S : HState)
    (a : Nat × List Nat) :
    (processAtom sel rr S a).refatm_selres_pair =
      (atmSame S.refatm_same_selres S.refatm_selres_pair
        (countsOf (a.2.map (fun j => sel.resids.getD j 0)))).2 := rfl

theorem processAtom_tot (sel : AtomGroup) (rr : List Nat) (S : HState)
    (a : Nat × List Nat) :
    (processAtom sel rr S a).refres_selatm_tot =
      modifyIdx S.refres_selatm_tot (searchRank rr a.1) (· + a.2.length) := rfl

theorem processAtom_diff_selatm (sel : AtomGroup) (rr : List Nat) (S : HState)
    (a : Nat × List Nat) :
    (processAtom sel rr S a).refres_diff_selatm =
      modifyIdx S.refres_diff_selatm (searchRank rr a.1)
        (· + ((uniqueSorted a.2).filter
          (fun s => getB2 S.selatm_unused (searchRank rr a.1) s)).length) := rfl

theorem processAtom_selatm_unused (sel : AtomGroup) (rr : List Nat) (S : HState)
    (a : Nat × List Nat) :
    (processAtom sel rr S a).selatm_unused =
      modifyIdx S.selatm_unused (searchRank rr a.1)
        (fun row => maskOff row (uniqueSorted a.2)) := rfl

theorem processAtom_selatm_pair (sel : AtomGroup) (rr : List Nat) (S : HState)
    (a : Nat × List Nat) :
    (processAtom sel rr S a).refres_selatm_pair =
      modifyIdx S.refres_selatm_pair (searchRank rr a.1)
        (fun row => fancyIncr row (uniqueSorted a.2)) := rfl

theorem processAtom_diff_selres_res (sel : AtomGroup) (rr : List Nat) (S : HState)
    (a : Nat × List Nat) :
    (processAtom sel rr S a).refres_diff_selres =
      modifyIdx S.refres_diff_selres (searchRank rr a.1)
        (· + (((uniqueSorted (a.2.map (fun j => sel.resids.getD j 0))).map
            (fun u => searchRank sel.resids u)).filter
          (fun s => getB2 S.selres_unused (searchRank rr a.1) s)).length) := rfl

theorem processAtom_selres_unused (sel : AtomGroup) (rr : List Nat) (S : HState)
    (a : Nat × List Nat) :
    (processAtom sel rr S a).selres_unused =
      modifyIdx S.selres_unused (searchRank rr a.1)
        (fun row => maskOff row ((uniqueSorted (a.2.map (fun j => sel.resids.getD j 0))).map
          (fun u => searchRank sel.resids u))) := rfl

theorem processAtom_selres_pair_res (sel : AtomGroup) (rr : List Nat) (S : HState)
    (a : Nat × List Nat) :
    (processAtom sel rr S a).refres_selres_pair =
      modifyIdx S.refres_selres_pair (searchRank rr a.1)
        (fun row => addAt row (((uniqueSorted (a.2.map (fun j => sel.resids.getD j 0))).map
            (fun u => searchRank sel.resids u)).zip
          (countsOf (a.2.map (fun j => sel.resids.getD j 0))))) := rfl

theorem runLoop_cons (sel : AtomGroup) (rr : List Nat) (a : Nat × List Nat)
    (atoms : List (Nat × List Nat)) (S : HState) :
    runLoop sel rr (a :: atoms) S = runLoop sel rr atoms (processAtom sel rr S a) := rfl

theorem runLoop_nil (sel : AtomGroup) (rr : List Nat) (S : HState) :
    runLoop sel rr [] S = S := rfl

theorem runLoop_selatm_getD (sel : AtomGroup) (rr : List Nat)
    (atoms : List (Nat × List Nat)) (S : HState) (k : Nat) :
    (runLoop sel rr atoms S).refatm_selatm.getD k 0 =
      S.refatm_selatm.getD k 0 + (atoms.map (fun a => a.2.length)).count k := by
  induction atoms generalizing S with
  | nil => simp [runLoop_nil]
  | cons a atoms ih =>
    rw [runLoop_cons, ih, processAtom_selatm, getD_extIncr, List.map_cons, List.count_cons]
    by_cases hk : k = a.2.length
    · simp [hk]
      omega
    · have h2 : a.2.length ≠ k := fun he => hk he.symm
      simp [hk, h2]

theorem runLoop_selatm_sum (sel : AtomGroup) (rr : List Nat)
    (atoms : List (Nat × List Nat)) (S : HState) :
    (runLoop sel rr atoms S).refatm_selatm.sum =
      S.refatm_selatm.sum + atoms.length := by
  induction atoms generalizing S with
  | nil => simp [runLoop_nil]
  | cons a atoms ih =>
    rw [runLoop_cons, ih, processAtom_selatm, sum_extIncr, List.length_cons]
    omega

theorem runLoop_diff_selres_sum (sel : AtomGroup) (rr : List Nat)
    (atoms : List (Nat × List Nat)) (S : HState) :
    (runLoop sel rr atoms S).refatm_diff_selres.sum =
      S.refatm_diff_selres.sum + atoms.length := by
  induction atoms generalizing S with
  | nil => simp [runLoop_nil]
  | cons a atoms ih =>
    rw [runLoop_cons, ih, processAtom_diff_selres, sum_extIncr, List.length_cons]
    omega

theorem runLoop_tot_length (sel : AtomGroup) (rr : List Nat)
    (atoms : List (Nat × List Nat)) (S : HState) :
    (runLoop sel rr atoms S).refres_selatm_tot.length = S.refres_selatm_tot.length := by
  induction atoms generalizing S with
  | nil => rfl
  | cons a atoms ih =>
    rw [runLoop_cons, ih, processAtom_tot, length_modifyIdx]

theorem runLoop_diff_selatm_length (sel : AtomGroup) (rr : List Nat)
    (atoms : List (Nat × List Nat)) (S : HState) :
    (runLoop sel rr atoms S).refres_diff_selatm.length = S.refres_diff_selatm.length := by
  induction atoms generalizing S with
  | nil => rfl
  | cons a atoms ih =>
    rw [runLoop_cons, ih, processAtom_diff_selatm, length_modifyIdx]

theorem runLoop_diff_selres_res_length (sel : AtomGroup) (rr : List Nat)
    (atoms : List (Nat × List Nat)) (S : HState) :
    (runLoop sel rr atoms S).refres_diff_selres.length = S.refres_diff_selres.length := by
  induction atoms generalizing S with
  | nil => rfl
  | cons a atoms ih =>
    rw [runLoop_cons, ih, processAtom_diff_selres_res, length_modifyIdx]

theorem runLoop_selatm_pair_length (sel : AtomGroup) (rr : List Nat)
    (atoms : List (Nat × List Nat)) (S : HState) :
    (runLoop sel rr atoms S).refres_selatm_pair.length = S.refres_selatm_pair.length := by
  induction atoms generalizing S with
  | nil => rfl
  | cons a atoms ih =>
    rw [runLoop_cons, ih, processAtom_selatm_pair, length_modifyIdx]

theorem runLoop_selres_pair_length (sel : AtomGroup) (rr : List Nat)
    (atoms : List (Nat × List Nat)) (S : HState) :
    (runLoop sel rr atoms S).refres_selres_pair.length = S.refres_selres_pair.length := by
  induction atoms generalizing S with
  | nil => rfl
  | cons a atoms ih =>
    rw [runLoop_cons, ih, processAtom_selres_pair_res, length_modifyIdx]

theorem runLoop_selatm_pair_rows (sel : AtomGroup) (rr : List Nat)
    (atoms : List (Nat × List Nat)) (S : HState) (w : Nat)
    (h : ∀ row ∈ S.refres_selatm_pair, row.length = w) :
    ∀ row ∈ (runLoop sel rr atoms S).refres_selatm_pair, row.length = w := by
  induction atoms generalizing S with
  | nil => exact h
  | cons a atoms ih =>
    rw [runLoop_cons]
    apply ih
    rw [processAtom_selatm_pair]
    exact modifyIdx_forall _ _ _ _ h (fun x hx => by rw [length_fancyIncr]; exact hx)

theorem runLoop_selres_pair_rows (sel : AtomGroup) (rr : List Nat)
    (atoms : List (Nat × List Nat)) (S : HState) (w : Nat)
    (h : ∀ row ∈ S.refres_selres_pair, row.length = w) :
    ∀ row ∈ (runLoop sel rr atoms S).refres_selres_pair, row.length = w := by
  induction atoms generalizing S with
  | nil => exact h
  | cons a atoms ih =>
    rw [runLoop_cons]
    apply ih
    rw [processAtom_selres_pair_res]
    exact modifyIdx_forall _ _ _ _ h (fun x hx => by rw [length_addAt]; exact hx)

theorem runLoop_same_selres_getD_le (sel : AtomGroup) (rr : List Nat)
    (atoms : List (Nat × List Nat)) (S : HState) (i : Nat) :
    (runLoop sel rr atoms S).refatm_same_selres.getD i 0 ≤
      S.refatm_same_selres.getD i 0 + atoms.length := by
  induction atoms generalizing S with
  | nil => simp [runLoop_nil]
  | cons a atoms ih =>
    rw [runLoop_cons, List.length_cons]
    calc (runLoop sel rr atoms (processAtom sel rr S a)).refatm_same_selres.getD i 0 ≤
        (processAtom sel rr S a).refatm_same_selres.getD i 0 + atoms.length := ih _
      _ ≤ (S.refatm_same_selres.getD i 0 + 1) + atoms.length := by
          rw [processAtom_same_selres]
          have := getD_atmSame_fst_le S.refatm_same_selres S.refatm_selres_pair
            (countsOf (a.2.map (fun j => sel.resids.getD j 0))) i
          omega
      _ = S.refatm_same_selres.getD i 0 + (atoms.length + 1) := by omega

theorem runLoop_selres_pair_getD_zero (sel : AtomGroup) (rr : List Nat)
    (atoms : List (Nat × List Nat)) (S : HState) :
    (runLoop sel rr atoms S).refatm_selres_pair.getD 0 0 =
      S.refatm_selres_pair.getD 0 0 := by
  induction atoms generalizing S with
  | nil => rfl
  | cons a atoms ih =>
    rw [runLoop_cons, ih, processAtom_selres_pair]
    exact getD_atmSame_snd_zero _ _ _
      (fun c hc => Nat.pos_iff_ne_zero.1 (countsOf_pos _ c hc))

theorem atomsOf_length (ref : AtomGroup) (nbr : Nat → List Nat) :
    (atomsOf ref nbr).length = nAtoms ref := by
  simp [atomsOf]

theorem nResidues_pos (g : AtomGroup) (h : nAtoms g ≠ 0) : 0 < nResidues g := by
  unfold nResidues
  rcases Nat.pos_of_ne_zero h with _
  have : g.resids ≠ [] := by
    intro he
    apply h
    simp [nAtoms, he]
  have h2 : uniqueSorted g.resids ≠ [] := fun he => this ((uniqueSorted_nil_iff _).1 he)
  cases hu : uniqueSorted g.resids with
  | nil => exact absurd hu h2
  | cons a l => simp

theorem contact_hist_normal (ref sel : AtomGroup) (nbr : Nat → List Nat) (cutoff e : Int)
    (href : nAtoms ref ≠ 0) (hsel : nAtoms sel ≠ 0) (hc : 0 < cutoff) :
    (contact_hist ref sel nbr cutoff e).2 =
      finalize ref (runLoop sel ref.resids (atomsOf ref nbr)
        (initState ref sel (if e ≤ 0 then 16 else e.toNat))) := by
  have hnc : ¬ cutoff ≤ 0 := by omega
  simp only [contact_hist]
  rw [if_neg href, if_neg (not_or.2 ⟨hsel, hnc⟩)]

/-- C3: on the normal path the sums of `refatm_selatm` and
`refatm_diff_selres` equal the number of reference atoms, and the sums
of `refres_diff_selatm`, `refres_selatm_tot` and `refres_diff_selres`
equal the number of reference residues. -/
theorem c3_sum_invariants (ref sel : AtomGroup) (nbr : Nat → List Nat) (cutoff e : Int)
    (href : nAtoms ref ≠ 0) (hsel : nAtoms sel ≠ 0) (hc : 0 < cutoff) :
    (contact_hist ref sel nbr cutoff e).2.refatm_selatm.sum = nAtoms ref ∧
    (contact_hist ref sel nbr cutoff e).2.refatm_diff_selres.sum = nAtoms ref ∧
    (contact_hist ref sel nbr cutoff e).2.refres_diff_selatm.sum = nResidues ref ∧
    (contact_hist ref sel nbr cutoff e).2.refres_selatm_tot.sum = nResidues ref ∧
    (contact_hist ref sel nbr cutoff e).2.refres_diff_selres.sum = nResidues ref := by
  rw [contact_hist_normal ref sel nbr cutoff e href hsel hc]
  have hres : 0 < nResidues ref := nResidues_pos ref href
  refine ⟨?_, ?_, ?_, ?_, ?_⟩
  · show (extend _ _).sum = _
    rw [sum_extend, runLoop_selatm_sum, atomsOf_length]
    show (List.replicate _ 0).sum + _ = _
    simp
  · show (extend _ _).sum = _
    rw [sum_extend, runLoop_diff_selres_sum, atomsOf_length]
    show (List.replicate _ 0).sum + _ = _
    simp
  · show (extend (post_diff_sa _) _).sum = _
    rw [sum_extend]
    unfold post_diff_sa
    rw [sum_bincount, runLoop_diff_selatm_length]
    · show (List.replicate (nResidues ref) 0).length = _
      simp
    · intro he
      have := congrArg List.length he
      rw [runLoop_diff_selatm_length] at this
      simp [initState] at this
      omega
  · show (extend (post_tot_sa _) _).sum = _
    rw [sum_extend]
    unfold post_tot_sa
    rw [sum_bincount, runLoop_tot_length]
    · show (List.replicate (nResidues ref) 0).length = _
      simp
    · intro he
      have := congrArg List.length he
      rw [runLoop_tot_length] at this
      simp [initState] at this
      omega
  · show (extend (post_diff_sr _) _).sum = _
    rw [sum_extend]
    unfold post_diff_sr
    rw [sum_bincount, runLoop_diff_selres_res_length]
    · show (List.replicate (nResidues ref) 0).length = _
      simp
    · intro he
      have := congrArg List.length he
      rw [runLoop_diff_selres_res_length] at this
      simp [initState] at this
      omega

theorem getD_zeroHead (l : List Nat) : (zeroHead l).getD 0 0 = 0 := by
  cases l <;> rfl

/-- C2: the per-atom update of `refatm_same_selres` inside
`contact_hist` increments, for a reference atom with a non-empty
neighbor set, exactly the bins whose index occurs among the per-residue
contact multiplicities of the atom, each by exactly 1 (several selection
residues sharing a multiplicity are not double-counted); a reference
atom with an empty neighbor set increments exactly bin 0 by 1. -/
theorem c2_same_selres_per_atom (sel : AtomGroup) (rr : List Nat) (S : HState)
    (rid : Nat) (near : List Nat) (hlen : 0 < S.refatm_same_selres.length) :
    (near ≠ [] → ∀ m,
      (processAtom sel rr S (rid, near)).refatm_same_selres.getD m 0 =
        S.refatm_same_selres.getD m 0 +
          (if m ∈ countsOf (near.map (fun j => sel.resids.getD j 0)) then 1 else 0)) ∧
    (near = [] → ∀ m,
      (processAtom sel rr S (rid, near)).refatm_same_selres.getD m 0 =
        S.refatm_same_selres.getD m 0 + (if m = 0 then 1 else 0)) := by
  constructor
  · intro hne m
    rw [processAtom_same_selres]
    apply getD_atmSame_fst_of_ne
    intro he
    rw [countsOf_nil_iff] at he
    exact hne (List.map_eq_nil_iff.1 he)
  · intro hnil m
    subst hnil
    rw [processAtom_same_selres]
    exact getD_atmSame_fst_nil _ _ hlen m

/-- Witness for C2: the first reference atom of the end-to-end example
(multiplicity list `[2]`) and an atom with no neighbors. -/
theorem c2_same_selres_per_atom_witness :
    ((processAtom exSel exRef.resids (initState exRef exSel 16)
        (1, [0, 1])).refatm_same_selres.getD 2 0 =
      (initState exRef exSel 16).refatm_same_selres.getD 2 0 +
        (if 2 ∈ countsOf ([0, 1].map (fun j => exSel.resids.getD j 0)) then 1 else 0)) ∧
    ((processAtom exSel exRef.resids (initState exRef exSel 16)
        (2, [])).refatm_same_selres.getD 0 0 =
      (initState exRef exSel 16).refatm_same_selres.getD 0 0 + 1) := by
  constructor
  · exact (c2_same_selres_per_atom exSel exRef.resids (initState exRef exSel 16) 1 [0, 1]
      (by decide)).1 (by decide) 2
  · have h := (c2_same_selres_per_atom exSel exRef.resids (initState exRef exSel 16) 2 []
      (by decide)).2 rfl 0
    simpa using h

theorem getD_mem {α : Type} (M : List α) (r : Nat) (d : α) (h : r < M.length) :
    M.getD r d ∈ M := by
  induction M generalizing r with
  | nil => simp at h
  | cons a M ih =>
    cases r with
    | zero => simp
    | succ r =>
      rw [List.getD_cons_succ]
      exact List.mem_cons_of_mem a (ih r (by simpa using h))

theorem exists_getD_of_mem {α : Type} (M : List α) (v : α) (d : α) (h : v ∈ M) :
    ∃ s, s < M.length ∧ M.getD s d = v := by
  induction M with
  | nil => simp at h
  | cons a M ih =>
    rcases List.mem_cons.1 h with he | hm
    · exact ⟨0, by simp, by simp [he.symm]⟩
    · rcases ih hm with ⟨s, hs, hg⟩
      exact ⟨s + 1, by simpa using hs, by simpa using hg⟩

theorem length_filter_map_eq {α β : Type} (l : List α) (f : α → β) (p : β → Bool) :
    ((l.map f).filter p).length = (l.filter (fun x => p (f x))).length := by
  induction l with
  | nil => rfl
  | cons a l ih =>
    simp only [List.map_cons, List.filter_cons]
    by_cases h : p (f a) = true
    · simp only [h, if_true, List.length_cons, ih]
    · simp only [h, Bool.false_eq_true, if_false, ih]

theorem filter_length_by_index (M : List (List Nat)) (p : List Nat → Bool) :
    (M.filter p).length =
      ((List.range M.length).filter (fun r => p (M.getD r []))).length := by
  induction M with
  | nil => rfl
  | cons row M ih =>
    rw [List.length_cons, List.range_succ_eq_map]
    simp only [List.filter_cons, List.getD_cons_zero]
    by_cases h : p row = true
    · simp only [h, if_true, List.length_cons]
      rw [length_filter_map_eq]
      simp only [List.getD_cons_succ]
      rw [ih]
    · simp only [h, Bool.false_eq_true, if_false]
      rw [length_filter_map_eq]
      simp only [List.getD_cons_succ]
      rw [ih]

theorem anyEq_true_iff (row : List Nat) (n : Nat) :
    anyEq row n = true ↔ ∃ s, s < row.length ∧ row.getD s 0 = n := by
  unfold anyEq
  rw [List.any_eq_true]
  constructor
  · rintro ⟨v, hv, he⟩
    have hvn : v = n := by simpa using he
    subst hvn
    exact exists_getD_of_mem row v 0 hv
  · rintro ⟨s, hs, he⟩
    refine ⟨n, ?_, by simp⟩
    rw [← he]
    exact getD_mem row s 0 hs

theorem anyPos_true_iff (row : List Nat) :
    anyPos row = true ↔ ∃ s, s < row.length ∧ row.getD s 0 ≠ 0 := by
  unfold anyPos
  rw [List.any_eq_true]
  constructor
  · rintro ⟨v, hv, he⟩
    have hvn : v ≠ 0 := by simpa using he
    rcases exists_getD_of_mem row v 0 hv with ⟨s, hs, hg⟩
    exact ⟨s, hs, by rw [hg]; exact hvn⟩
  · rintro ⟨s, hs, he⟩
    refine ⟨row.getD s 0, getD_mem row s 0 hs, by simpa using he⟩

theorem anyEq_eq_decide (row : List Nat) (n w : Nat) (hw : row.length = w) :
    anyEq row n = decide (∃ s, s < w ∧ row.getD s 0 = n) := by
  subst hw
  by_cases h : ∃ s, s < row.length ∧ row.getD s 0 = n
  · rw [decide_eq_true h]
    exact (anyEq_true_iff row n).2 h
  · rw [decide_eq_false h]
    cases hh : anyEq row n with
    | false => rfl
    | true => exact absurd ((anyEq_true_iff row n).1 hh) h

theorem anyPos_eq_decide (row : List Nat) (w : Nat) (hw : row.length = w) :
    anyPos row = decide (∃ s, s < w ∧ row.getD s 0 ≠ 0) := by
  subst hw
  by_cases h : ∃ s, s < row.length ∧ row.getD s 0 ≠ 0
  · rw [decide_eq_true h]
    exact (anyPos_true_iff row).2 h
  · rw [decide_eq_false h]
    cases hh : anyPos row with
    | false => rfl
    | true => exact absurd ((anyPos_true_iff row).1 hh) h

theorem sameHist_getD_le (M : List (List Nat)) (nres : Nat) (hM : M.length ≤ nres)
    (i : Nat) : (sameHist M nres).getD i 0 ≤ nres := by
  unfold sameHist
  cases i with
  | zero =>
    rw [List.getD_cons_zero]
    exact Nat.sub_le _ _
  | succ k =>
    rw [List.getD_cons_succ, getD_map_range]
    by_cases h : k < matMax M
    · rw [if_pos h]
      exact le_trans (List.length_filter_le _ M) hM
    · rw [if_neg h]
      omega

theorem map_getD_range {α : Type} (l : List α) (d : α) :
    (List.range l.length).map (fun i => l.getD i d) = l := by
  induction l with
  | nil => rfl
  | cons x t ih =>
    rw [List.length_cons, List.range_succ_eq_map, List.map_cons, List.map_map]
    have hc : ((fun i => (x :: t).getD i d) ∘ Nat.succ) = (fun i => t.getD i d) := by
      funext i
      rfl
    rw [hc, ih]
    rfl

theorem map_fst_atomsOf (ref : AtomGroup) (nbr : Nat → List Nat) :
    (atomsOf ref nbr).map Prod.fst = ref.resids := by
  unfold atomsOf nAtoms
  rw [List.map_map]
  have hc : (Prod.fst ∘ fun i => (ref.resids.getD i 0, nbr i)) =
      (fun i => ref.resids.getD i 0) := by
    funext i
    rfl
  rw [hc]
  exact map_getD_range ref.resids 0

theorem self_perm_getD_cons (v : List Nat) (r : Nat) (h : r < v.length) :
    v.Perm (v.getD r 0 :: v.eraseIdx r) := by
  induction v generalizing r with
  | nil => simp at h
  | cons x t ih =>
    cases r with
    | zero => simp
    | succ r =>
      have h' : r < t.length := by simpa using h
      rw [List.getD_cons_succ, List.eraseIdx_cons_succ]
      exact ((ih r h').cons x).trans (List.Perm.swap (t.getD r 0) x (t.eraseIdx r))

theorem modifyIdx_add_perm_cons (v : List Nat) (r k : Nat) (h : r < v.length) :
    (modifyIdx v r (· + k)).Perm ((v.getD r 0 + k) :: v.eraseIdx r) := by
  induction v generalizing r with
  | nil => simp at h
  | cons x t ih =>
    cases r with
    | zero => simp [modifyIdx]
    | succ r =>
      have h' : r < t.length := by simpa using h
      rw [List.getD_cons_succ, List.eraseIdx_cons_succ]
      show (x :: modifyIdx t r (· + k)).Perm _
      exact ((ih r h').cons x).trans (List.Perm.swap (t.getD r 0 + k) x (t.eraseIdx r))

/-- Writing `k` into a still-zero slot of `v` turns a decomposition of
`v` into written values plus a pool of zeros into the decomposition with
one more written value and one fewer zero. -/
theorem perm_write_zero (v : List Nat) (r k z : Nat) (dm : List Nat)
    (hr : r < v.length) (h0 : v.getD r 0 = 0) (hz : 1 ≤ z)
    (hp : v.Perm (dm ++ List.replicate z 0)) :
    (modifyIdx v r (· + k)).Perm ((dm ++ [k]) ++ List.replicate (z - 1) 0) := by
  have h1 : v.Perm (0 :: v.eraseIdx r) := by
    have h := self_perm_getD_cons v r hr
    rwa [h0] at h
  have hzz : List.replicate z (0 : Nat) = 0 :: List.replicate (z - 1) 0 := by
    cases z with
    | zero => omega
    | succ m => rw [List.replicate_succ]; rfl
  have h2 : (dm ++ List.replicate z 0).Perm (0 :: (dm ++ List.replicate (z - 1) 0)) := by
    rw [hzz]
    exact @List.perm_middle Nat 0 dm (List.replicate (z - 1) 0)
  have h4 : (v.eraseIdx r).Perm (dm ++ List.replicate (z - 1) 0) :=
    List.Perm.cons_inv (h1.symm.trans (hp.trans h2))
  have h5 := modifyIdx_add_perm_cons v r k hr
  rw [h0] at h5
  have h6 : (modifyIdx v r (· + k)).Perm (k :: (dm ++ List.replicate (z - 1) 0)) := by
    have hk : 0 + k = k := by omega
    rw [hk] at h5
    exact h5.trans (h4.cons k)
  have h7 : (k :: (dm ++ List.replicate (z - 1) 0)).Perm
      ((dm ++ [k]) ++ List.replicate (z - 1) 0) := by
    rw [List.append_assoc]
    exact (@List.perm_middle Nat k dm (List.replicate (z - 1) 0)).symm
  exact h6.trans h7

theorem getB2_modifyIdx_ne (M : List (List Bool)) (r : Nat) (f : List Bool → List Bool)
    (r' s : Nat) (h : r' ≠ r) : getB2 (modifyIdx M r f) r' s = getB2 M r' s := by
  unfold getB2
  rw [getD_modifyIdx_ne _ _ _ _ _ h]

theorem length_filter_all (l : List Nat) (p : Nat → Bool) (h : ∀ x ∈ l, p x = true) :
    (l.filter p).length = l.length := by
  rw [List.filter_eq_self.2 h]

/-- Loop invariant for the singleton-residue degenerate case: when the
reference atoms still to be processed have pairwise distinct residue
ranks, each pointing at a still-zero slot of `refres_selatm_tot` and
`refres_diff_selatm` and at an untouched row of the `selatm_unused`
mask, each atom writes its (duplicate-free, in-range) neighbor count
into a fresh slot, so both per-residue vectors end up as the multiset of
per-atom neighbor counts plus the remaining pool of zeros. -/
theorem c7_loop (sel : AtomGroup) (rr : List Nat) (n w : Nat)
    (A : List (Nat × List Nat)) :
    ∀ (S : HState) (dm1 dm2 : List Nat) (z1 z2 : Nat),
    List.Pairwise (fun a b => searchRank rr a.1 ≠ searchRank rr b.1) A →
    (∀ a ∈ A, searchRank rr a.1 < n) →
    (∀ a ∈ A, a.2.Nodup) →
    (∀ a ∈ A, ∀ j ∈ a.2, j < w) →
    S.refres_selatm_tot.length = n →
    S.refres_diff_selatm.length = n →
    A.length ≤ z1 → A.length ≤ z2 →
    S.refres_selatm_tot.Perm (dm1 ++ List.replicate z1 0) →
    S.refres_diff_selatm.Perm (dm2 ++ List.replicate z2 0) →
    (∀ a ∈ A, S.refres_selatm_tot.getD (searchRank rr a.1) 0 = 0) →
    (∀ a ∈ A, S.refres_diff_selatm.getD (searchRank rr a.1) 0 = 0) →
    (∀ a ∈ A, ∀ s, s < w → getB2 S.selatm_unused (searchRank rr a.1) s = true) →
    (runLoop sel rr A S).refres_selatm_tot.Perm
      ((dm1 ++ A.map (fun a => a.2.length)) ++ List.replicate (z1 - A.length) 0) ∧
    (runLoop sel rr A S).refres_diff_selatm.Perm
      ((dm2 ++ A.map (fun a => a.2.length)) ++ List.replicate (z2 - A.length) 0) := by
  induction A with
  | nil =>
    intro S dm1 dm2 z1 z2 _ _ _ _ _ _ _ _ hp1 hp2 _ _ _
    simp only [runLoop_nil, List.map_nil, List.append_nil, List.length_nil, Nat.sub_zero]
    exact ⟨hp1, hp2⟩
  | cons a A ih =>
    intro S dm1 dm2 z1 z2 hpw hlt hnd hbound hl1 hl2 hz1 hz2 hp1 hp2 h01 h02 hmask
    have hmem : a ∈ a :: A := List.mem_cons_self a A
    have hr_lt : searchRank rr a.1 < n := hlt a hmem
    have hz1p : 1 ≤ z1 := by
      rw [List.length_cons] at hz1
      omega
    have hz2p : 1 ≤ z2 := by
      rw [List.length_cons] at hz2
      omega
    rcases List.pairwise_cons.1 hpw with ⟨hhead, htail⟩
    have hm_eq : ((uniqueSorted a.2).filter
        (fun s => getB2 S.selatm_unused (searchRank rr a.1) s)).length = a.2.length := by
      rw [length_filter_all]
      · exact length_uniqueSorted_of_nodup a.2 (hnd a hmem)
      · intro s hs
        exact hmask a hmem s
          (hbound a hmem s ((mem_uniqueSorted a.2 s).1 hs))
    rw [runLoop_cons]
    have htot : (processAtom sel rr S a).refres_selatm_tot =
        modifyIdx S.refres_selatm_tot (searchRank rr a.1) (· + a.2.length) :=
      processAtom_tot sel rr S a
    have hdiff : (processAtom sel rr S a).refres_diff_selatm =
        modifyIdx S.refres_diff_selatm (searchRank rr a.1) (· + a.2.length) := by
      rw [processAtom_diff_selatm sel rr S a, hm_eq]
    have hconc := ih (processAtom sel rr S a) (dm1 ++ [a.2.length]) (dm2 ++ [a.2.length])
      (z1 - 1) (z2 - 1) htail
      (fun b hb => hlt b (List.mem_cons_of_mem a hb))
      (fun b hb => hnd b (List.mem_cons_of_mem a hb))
      (fun b hb => hbound b (List.mem_cons_of_mem a hb))
      (by rw [htot, length_modifyIdx, hl1])
      (by rw [hdiff, length_modifyIdx, hl2])
      (by rw [List.length_cons] at hz1; omega)
      (by rw [List.length_cons] at hz2; omega)
      (by
        rw [htot]
        exact perm_write_zero _ _ _ _ _ (by rw [hl1]; exact hr_lt) (h01 a hmem) hz1p hp1)
      (by
        rw [hdiff]
        exact perm_write_zero _ _ _ _ _ (by rw [hl2]; exact hr_lt) (h02 a hmem) hz2p hp2)
      (fun b hb => by
        rw [htot, getD_modifyIdx_ne _ _ _ _ _ (Ne.symm (hhead b hb))]
        exact h01 b (List.mem_cons_of_mem a hb))
      (fun b hb => by
        rw [hdiff, getD_modifyIdx_ne _ _ _ _ _ (Ne.symm (hhead b hb))]
        exact h02 b (List.mem_cons_of_mem a hb))
      (fun b hb s hs => by
        rw [processAtom_selatm_unused sel rr S a,
          getB2_modifyIdx_ne _ _ _ _ _ (Ne.symm (hhead b hb))]
        exact hmask b (List.mem_cons_of_mem a hb) s hs)
    have hshape1 : ((dm1 ++ [a.2.length]) ++ A.map (fun b => b.2.length)) =
        (dm1 ++ (a :: A).map (fun b => b.2.length)) := by
      rw [List.map_cons, List.append_assoc]
      rfl
    have hshape2 : ((dm2 ++ [a.2.length]) ++ A.map (fun b => b.2.length)) =
        (dm2 ++ (a :: A).map (fun b => b.2.length)) := by
      rw [List.map_cons, List.append_assoc]
      rfl
    have hz1' : z1 - 1 - A.length = z1 - (a :: A).length := by
      rw [List.length_cons]
      omega
    have hz2' : z2 - 1 - A.length = z2 - (a :: A).length := by
      rw [List.length_cons]
      omega
    rw [hshape1, hz1', hshape2, hz2'] at hconc
    exact hconc

theorem pairwise_imp_mem {α : Type} {R T : α → α → Prop} :
    ∀ (l : List α), (∀ a b, a ∈ l → b ∈ l → R a b → T a b) →
      l.Pairwise R → l.Pairwise T := by
  intro l
  induction l with
  | nil => intro _ _; exact List.Pairwise.nil
  | cons a l ih =>
    intro h hp
    rcases List.pairwise_cons.1 hp with ⟨hhead, htail⟩
    apply List.pairwise_cons.2
    constructor
    · intro b hb
      exact h a b (List.mem_cons_self a l) (List.mem_cons_of_mem a hb) (hhead b hb)
    · exact ih (fun x y hx hy => h x y (List.mem_cons_of_mem a hx)
        (List.mem_cons_of_mem a hy)) htail

theorem getD_replicate_zero (n i : Nat) : (List.replicate n (0 : Nat)).getD i 0 = 0 := by
  rw [getD_replicate_self]
  split <;> rfl

/-- Effect of one atom on `refatm_selres_pair` (the second component of
`atmSame`): every bin gains the number of occurrences of its index in
the multiplicity list. -/
theorem getD_atmSame_snd (hh pair counts : List Nat) (m : Nat) :
    (atmSame hh pair counts).2.getD m 0 = pair.getD m 0 + counts.count m := by
  unfold atmSame
  by_cases hc : counts = []
  · rw [if_pos hc, hc]
    simp
  · rw [if_neg hc]
    show (addAt1 (extend pair (maxL counts + 1)) counts).getD m 0 = _
    rw [getD_addAt1 _ _ _ (fun i hi => by
      rw [length_extend]
      have := le_maxL counts i hi
      omega), getD_extend]

theorem sameView_refl (A : ContactHist) : SameView A A :=
  ⟨fun _ => rfl, fun _ => rfl, fun _ => rfl, fun _ => rfl, fun _ => rfl, fun _ => rfl,
   fun _ => rfl, fun _ => rfl, fun _ => rfl, fun _ => rfl, fun _ => rfl⟩

theorem viewRel_step (sel : AtomGroup) (rr : List Nat) (a : Nat × List Nat)
    (S T : HState) (h : ViewRel S T) :
    ViewRel (processAtom sel rr S a) (processAtom sel rr T a) := by
  refine ⟨?_, ?_, ?_, ?_, ?_, ?_, ?_, ?_, ?_, ?_, ?_, ?_, ?_⟩
  · intro i
    rw [processAtom_selatm sel rr S a, processAtom_selatm sel rr T a,
      getD_extIncr, getD_extIncr, h.selatm i]
  · intro i
    rw [processAtom_diff_selres sel rr S a, processAtom_diff_selres sel rr T a,
      getD_extIncr, getD_extIncr, h.diffres i]
  · intro i
    rw [processAtom_same_selres sel rr S a, processAtom_same_selres sel rr T a]
    by_cases hc : countsOf (a.2.map (fun j => sel.resids.getD j 0)) = []
    · rw [hc, getD_atmSame_fst_nil _ _ h.slen i, getD_atmSame_fst_nil _ _ h.tlen i,
        h.sameres i]
    · rw [getD_atmSame_fst_of_ne _ _ _ hc i, getD_atmSame_fst_of_ne _ _ _ hc i,
        h.sameres i]
  · intro i
    rw [processAtom_selres_pair sel rr S a, processAtom_selres_pair sel rr T a,
      getD_atmSame_snd, getD_atmSame_snd, h.pairres i]
  · rw [processAtom_same_selres sel rr S a]
    exact Nat.lt_of_lt_of_le h.slen (length_atmSame_fst _ _ _)
  · rw [processAtom_same_selres sel rr T a]
    exact Nat.lt_of_lt_of_le h.tlen (length_atmSame_fst _ _ _)
  · rw [processAtom_diff_selatm sel rr S a, processAtom_diff_selatm sel rr T a,
      h.rda, h.ua]
  · rw [processAtom_tot sel rr S a, processAtom_tot sel rr T a, h.rst]
  · rw [processAtom_diff_selres_res sel rr S a, processAtom_diff_selres_res sel rr T a,
      h.rdr, h.ur]
  · rw [processAtom_selatm_pair sel rr S a, processAtom_selatm_pair sel rr T a, h.msa]
  · rw [processAtom_selres_pair_res sel rr S a, processAtom_selres_pair_res sel rr T a,
      h.msr]
  · rw [processAtom_selatm_unused sel rr S a, processAtom_selatm_unused sel rr T a, h.ua]
  · rw [processAtom_selres_unused sel rr S a, processAtom_selres_unused sel rr T a, h.ur]

theorem viewRel_runLoop (sel : AtomGroup) (rr : List Nat) (atoms : List (Nat × List Nat))
    (S T : HState) (h : ViewRel S T) :
    ViewRel (runLoop sel rr atoms S) (runLoop sel rr atoms T) := by
  induction atoms generalizing S T with
  | nil => exact h
  | cons a atoms ih =>
    rw [runLoop_cons, runLoop_cons]
    exact ih _ _ (viewRel_step sel rr a S T h)

theorem viewRel_init (ref sel : AtomGroup) (m1 m2 : Nat) (h1 : 0 < m1) (h2 : 0 < m2) :
    ViewRel (initState ref sel m1) (initState ref sel m2) := by
  refine ⟨?_, ?_, ?_, ?_, ?_, ?_, rfl, rfl, rfl, rfl, rfl, rfl, rfl⟩
  · intro i
    show (List.replicate m1 0).getD i 0 = (List.replicate m2 0).getD i 0
    rw [getD_replicate_zero, getD_replicate_zero]
  · intro i
    show (List.replicate m1 0).getD i 0 = (List.replicate m2 0).getD i 0
    rw [getD_replicate_zero, getD_replicate_zero]
  · intro i
    show (List.replicate m1 0).getD i 0 = (List.replicate m2 0).getD i 0
    rw [getD_replicate_zero, getD_replicate_zero]
  · intro i
    show (List.replicate m1 0).getD i 0 = (List.replicate m2 0).getD i 0
    rw [getD_replicate_zero, getD_replicate_zero]
  · show 0 < (List.replicate m1 (0 : Nat)).length
    simpa using h1
  · show 0 < (List.replicate m2 (0 : Nat)).length
    simpa using h2

theorem sameView_finalize (ref : AtomGroup) (S T : HState) (h : ViewRel S T) :
    SameView (finalize ref S) (finalize ref T) := by
  refine ⟨?_, ?_, ?_, ?_, ?_, ?_, ?_, ?_, ?_, ?_, ?_⟩ <;> intro i
  · show (extend S.refatm_selatm _).getD i 0 = (extend T.refatm_selatm _).getD i 0
    rw [getD_extend, getD_extend, h.selatm i]
  · show (extend S.refatm_diff_selres _).getD i 0 = (extend T.refatm_diff_selres _).getD i 0
    rw [getD_extend, getD_extend, h.diffres i]
  · show (extend S.refatm_same_selres _).getD i 0 = (extend T.refatm_same_selres _).getD i 0
    rw [getD_extend, getD_extend, h.sameres i]
  · show (extend (post_diff_sa S) _).getD i 0 = (extend (post_diff_sa T) _).getD i 0
    rw [getD_extend, getD_extend]
    unfold post_diff_sa
    rw [h.rda]
  · show (extend (sameHist S.refres_selatm_pair _) _).getD i 0 =
      (extend (sameHist T.refres_selatm_pair _) _).getD i 0
    rw [getD_extend, getD_extend, h.msa]
  · show (extend (post_tot_sa S) _).getD i 0 = (extend (post_tot_sa T) _).getD i 0
    rw [getD_extend, getD_extend]
    unfold post_tot_sa
    rw [h.rst]
  · show (extend (post_diff_sr S) _).getD i 0 = (extend (post_diff_sr T) _).getD i 0
    rw [getD_extend, getD_extend]
    unfold post_diff_sr
    rw [h.rdr]
  · show (extend (sameHist S.refres_selres_pair _) _).getD i 0 =
      (extend (sameHist T.refres_selres_pair _) _).getD i 0
    rw [getD_extend, getD_extend, h.msr]
  · show (extend S.refatm_selres_pair _).getD i 0 = (extend T.refatm_selres_pair _).getD i 0
    rw [getD_extend, getD_extend, h.pairres i]
  · show (extend (post_pair_sa S) _).getD i 0 = (extend (post_pair_sa T) _).getD i 0
    rw [getD_extend, getD_extend]
    unfold post_pair_sa
    rw [h.msa]
  · show (extend (post_pair_sr S) _).getD i 0 = (extend (post_pair_sr T) _).getD i 0
    rw [getD_extend, getD_extend]
    unfold post_pair_sr
    rw [h.msr]

/-- C8: the `expected_max_contacts` capacity hint does not affect
results: a call with a non-positive hint returns exactly what a call
with the default 16 returns, and for any two positive hints the eleven
histograms agree on every bin (equality of the zero-extended views), so
they differ at most in trailing zero padding. -/
theorem c8_capacity_hint (ref sel : AtomGroup) (nbr : Nat → List Nat) (cutoff : Int) :
    (∀ e : Int, e ≤ 0 →
      contact_hist ref sel nbr cutoff e = contact_hist ref sel nbr cutoff 16) ∧
    (∀ e1 e2 : Int, 0 < e1 → 0 < e2 →
      SameView (contact_hist ref sel nbr cutoff e1).2
        (contact_hist ref sel nbr cutoff e2).2) := by
  constructor
  · intro e he
    have hemc : (if e ≤ 0 then (16 : Nat) else e.toNat) =
        (if (16 : Int) ≤ 0 then (16 : Nat) else (16 : Int).toNat) := by
      rw [if_pos he, if_neg (by norm_num)]
      rfl
    simp only [contact_hist]
    rw [hemc]
  · intro e1 e2 h1 h2
    by_cases hr : nAtoms ref = 0
    · simp only [contact_hist]
      rw [if_pos hr, if_pos hr]
      exact sameView_refl _
    · by_cases hs : nAtoms sel = 0 ∨ cutoff ≤ 0
      · simp only [contact_hist]
        rw [if_neg hr, if_pos hs, if_neg hr, if_pos hs]
        exact sameView_refl _
      · have hsel : nAtoms sel ≠ 0 := fun hh => hs (Or.inl hh)
        have hc : 0 < cutoff := by
          rcases Int.lt_or_le 0 cutoff with hcc | hcc
          · exact hcc
          · exact absurd (Or.inr hcc) hs
        rw [contact_hist_normal ref sel nbr cutoff e1 hr hsel hc,
          contact_hist_normal ref sel nbr cutoff e2 hr hsel hc]
        apply sameView_finalize
        apply viewRel_runLoop
        apply viewRel_init
        · rw [if_neg (by omega)]
          omega
        · rw [if_neg (by omega)]
          omega

/-- Witness for C8: a negative hint equals the default, and hints 2 and
9 agree on the views, at the end-to-end example. -/
theorem c8_capacity_hint_witness :
    (contact_hist exRef exSel exNbr 1 (-3) = contact_hist exRef exSel exNbr 1 16) ∧
    (contact_hist exRef exSel exNbr 1 2).2.refatm_selatm.getD 2 0 =
      (contact_hist exRef exSel exNbr 1 9).2.refatm_selatm.getD 2 0 :=
  ⟨(c8_capacity_hint exRef exSel exNbr 1).1 (-3) (by decide),
   ((c8_capacity_hint exRef exSel exNbr 1).2 2 9 (by decide) (by decide)).f1 2⟩

theorem sameHist_spec (M : List (List Nat)) (nres w : Nat)
    (hlen : M.length = nres) (hrows : ∀ row ∈ M, row.length = w) :
    (∀ n, 1 ≤ n → n ≤ matMax M →
      (sameHist M nres).getD n 0 = specSameCount M nres w n) ∧
    (sameHist M nres).getD 0 0 = nres - specBoundCount M nres w := by
  constructor
  · intro n h1 h2
    cases n with
    | zero => omega
    | succ k =>
      unfold sameHist
      rw [List.getD_cons_succ, getD_map_range, if_pos (by omega)]
      unfold specSameCount
      rw [filter_length_by_index, hlen]
      have hcong : List.filter (fun r => anyEq (M.getD r []) (k + 1)) (List.range nres) =
          List.filter (fun r => decide (∃ s, s < w ∧ (M.getD r []).getD s 0 = k + 1))
            (List.range nres) := by
        apply List.filter_congr
        intro r hr
        have hrlt : r < M.length := by
          rw [hlen]
          simpa using hr
        exact anyEq_eq_decide _ _ w (hrows _ (getD_mem M r [] hrlt))
      rw [hcong]
  · unfold sameHist
    rw [List.getD_cons_zero]
    unfold specBoundCount
    rw [filter_length_by_index, hlen]
    have hcong : List.filter (fun r => anyPos (M.getD r [])) (List.range nres) =
        List.filter (fun r => decide (∃ s, s < w ∧ (M.getD r []).getD s 0 ≠ 0))
          (List.range nres) := by
      apply List.filter_congr
      intro r hr
      have hrlt : r < M.length := by
        rw [hlen]
        simpa using hr
      exact anyPos_eq_decide _ w (hrows _ (getD_mem M r [] hrlt))
    rw [hcong]

/-- C4: bin 0 of each of the three pair histograms returned by
`contact_hist` is zero, on every path: the trivial paths return `[0]`,
bin 0 of `refres_selatm_pair` and `refres_selres_pair` is explicitly
overwritten with 0, and bin 0 of `refatm_selres_pair` is never touched
because every observed per-residue multiplicity is at least 1. -/
theorem c4_pair_bin0 (ref sel : AtomGroup) (nbr : Nat → List Nat) (cutoff e : Int) :
    (contact_hist ref sel nbr cutoff e).2.refatm_selres_pair.getD 0 0 = 0 ∧
    (contact_hist ref sel nbr cutoff e).2.refres_selatm_pair.getD 0 0 = 0 ∧
    (contact_hist ref sel nbr cutoff e).2.refres_selres_pair.getD 0 0 = 0 := by
  by_cases h1 : nAtoms ref = 0
  · simp only [contact_hist]
    rw [if_pos h1]
    exact ⟨rfl, rfl, rfl⟩
  · by_cases h2 : nAtoms sel = 0 ∨ cutoff ≤ 0
    · simp only [contact_hist]
      rw [if_neg h1, if_pos h2]
      exact ⟨rfl, rfl, rfl⟩
    · have hsel : nAtoms sel ≠ 0 := fun h => h2 (Or.inl h)
      have hc : 0 < cutoff := by
        rcases Int.lt_or_le 0 cutoff with h | h
        · exact h
        · exact absurd (Or.inr h) h2
      rw [contact_hist_normal ref sel nbr cutoff e h1 hsel hc]
      refine ⟨?_, ?_, ?_⟩
      · show (extend _ _).getD 0 0 = 0
        rw [getD_extend, runLoop_selres_pair_getD_zero]
        show (List.replicate _ 0).getD 0 0 = 0
        rw [getD_replicate_self]
        simp
      · show (extend (post_pair_sa _) _).getD 0 0 = 0
        rw [getD_extend]
        exact getD_zeroHead _
      · show (extend (post_pair_sr _) _).getD 0 0 = 0
        rw [getD_extend]
        exact getD_zeroHead _

/-- C10: on the normal path no entry of `refatm_same_selres` exceeds the
number of reference atoms, and no entry of `refres_same_selatm` or
`refres_same_selres` exceeds the number of reference residues (each
reference unit contributes at most one count per bin). -/
theorem c10_same_bounds (ref sel : AtomGroup) (nbr : Nat → List Nat) (cutoff e : Int)
    (href : nAtoms ref ≠ 0) (hsel : nAtoms sel ≠ 0) (hc : 0 < cutoff) :
    ∀ i, (contact_hist ref sel nbr cutoff e).2.refatm_same_selres.getD i 0 ≤ nAtoms ref ∧
      (contact_hist ref sel nbr cutoff e).2.refres_same_selatm.getD i 0 ≤ nResidues ref ∧
      (contact_hist ref sel nbr cutoff e).2.refres_same_selres.getD i 0 ≤ nResidues ref := by
  rw [contact_hist_normal ref sel nbr cutoff e href hsel hc]
  intro i
  refine ⟨?_, ?_, ?_⟩
  · show (extend _ _).getD i 0 ≤ _
    rw [getD_extend]
    have hb := runLoop_same_selres_getD_le sel ref.resids (atomsOf ref nbr)
      (initState ref sel (if e ≤ 0 then 16 else e.toNat)) i
    rw [atomsOf_length] at hb
    have h0 : (initState ref sel (if e ≤ 0 then 16 else e.toNat)).refatm_same_selres.getD i 0
        = 0 := by
      show (List.replicate _ 0).getD i 0 = 0
      rw [getD_replicate_self]
      simp
    omega
  · show (extend (sameHist _ _) _).getD i 0 ≤ _
    rw [getD_extend]
    apply sameHist_getD_le
    rw [runLoop_selatm_pair_length]
    show (List.replicate (nResidues ref) _).length ≤ _
    simp
  · show (extend (sameHist _ _) _).getD i 0 ≤ _
    rw [getD_extend]
    apply sameHist_getD_le
    rw [runLoop_selres_pair_length]
    show (List.replicate (nResidues ref) _).length ≤ _
    simp

/-- C5: on the normal path the residue-level "same" histograms are the
threshold scan of the corresponding pair-count matrix: for every `n`
from 1 to the matrix maximum, bin `n` equals the number of reference
residues having at least one partner column whose bond count is exactly
`n`, and bin 0 equals the number of reference residues minus the number
of reference residues with at least one nonzero entry in their row. -/
theorem c5_threshold_scan (ref sel : AtomGroup) (nbr : Nat → List Nat) (cutoff e : Int)
    (href : nAtoms ref ≠ 0) (hsel : nAtoms sel ≠ 0) (hc : 0 < cutoff) :
    (∀ n, 1 ≤ n → n ≤ matMax (loopStateOf ref sel nbr e).refres_selatm_pair →
      (contact_hist ref sel nbr cutoff e).2.refres_same_selatm.getD n 0 =
        specSameCount (loopStateOf ref sel nbr e).refres_selatm_pair
          (nResidues ref) (nAtoms sel) n) ∧
    ((contact_hist ref sel nbr cutoff e).2.refres_same_selatm.getD 0 0 =
      nResidues ref - specBoundCount (loopStateOf ref sel nbr e).refres_selatm_pair
        (nResidues ref) (nAtoms sel)) ∧
    (∀ n, 1 ≤ n → n ≤ matMax (loopStateOf ref sel nbr e).refres_selres_pair →
      (contact_hist ref sel nbr cutoff e).2.refres_same_selres.getD n 0 =
        specSameCount (loopStateOf ref sel nbr e).refres_selres_pair
          (nResidues ref) (nResidues sel) n) ∧
    ((contact_hist ref sel nbr cutoff e).2.refres_same_selres.getD 0 0 =
      nResidues ref - specBoundCount (loopStateOf ref sel nbr e).refres_selres_pair
        (nResidues ref) (nResidues sel)) := by
  rw [contact_hist_normal ref sel nbr cutoff e href hsel hc]
  have hlen_sa : (loopStateOf ref sel nbr e).refres_selatm_pair.length = nResidues ref := by
    unfold loopStateOf
    rw [runLoop_selatm_pair_length]
    show (List.replicate (nResidues ref) _).length = _
    simp
  have hrows_sa : ∀ row ∈ (loopStateOf ref sel nbr e).refres_selatm_pair,
      row.length = nAtoms sel := by
    unfold loopStateOf
    apply runLoop_selatm_pair_rows
    intro row hrow
    show row.length = _
    rw [List.eq_of_mem_replicate hrow]
    simp
  have hlen_sr : (loopStateOf ref sel nbr e).refres_selres_pair.length = nResidues ref := by
    unfold loopStateOf
    rw [runLoop_selres_pair_length]
    show (List.replicate (nResidues ref) _).length = _
    simp
  have hrows_sr : ∀ row ∈ (loopStateOf ref sel nbr e).refres_selres_pair,
      row.length = nResidues sel := by
    unfold loopStateOf
    apply runLoop_selres_pair_rows
    intro row hrow
    show row.length = _
    rw [List.eq_of_mem_replicate hrow]
    simp
  have hsa := sameHist_spec (loopStateOf ref sel nbr e).refres_selatm_pair
    (nResidues ref) (nAtoms sel) hlen_sa hrows_sa
  have hsr := sameHist_spec (loopStateOf ref sel nbr e).refres_selres_pair
    (nResidues ref) (nResidues sel) hlen_sr hrows_sr
  refine ⟨?_, ?_, ?_, ?_⟩
  · intro n h1 h2
    show (extend (sameHist _ _) _).getD n 0 = _
    rw [getD_extend]
    exact hsa.1 n h1 h2
  · show (extend (sameHist _ _) _).getD 0 0 = _
    rw [getD_extend]
    exact hsa.2
  · intro n h1 h2
    show (extend (sameHist _ _) _).getD n 0 = _
    rw [getD_extend]
    exact hsr.1 n h1 h2
  · show (extend (sameHist _ _) _).getD 0 0 = _
    rw [getD_extend]
    exact hsr.2

/-- C7: when every reference residue contains exactly one atom (the
residue id list of the reference group is duplicate-free) and the
neighbor query is valid, the residue-level histograms
`refres_diff_selatm` and `refres_selatm_tot` coincide, after shape
unification, with the atom-level histogram `refatm_selatm` exactly. -/
theorem c7_singleton_residues (ref sel : AtomGroup) (nbr : Nat → List Nat) (cutoff e : Int)
    (href : nAtoms ref ≠ 0) (hsel : nAtoms sel ≠ 0) (hc : 0 < cutoff)
    (hnd : ref.resids.Nodup) (hv : ValidNbr sel nbr) :
    (contact_hist ref sel nbr cutoff e).2.refres_diff_selatm =
      (contact_hist ref sel nbr cutoff e).2.refatm_selatm ∧
    (contact_hist ref sel nbr cutoff e).2.refres_selatm_tot =
      (contact_hist ref sel nbr cutoff e).2.refatm_selatm := by
  rw [contact_hist_normal ref sel nbr cutoff e href hsel hc]
  set emc := (if e ≤ 0 then 16 else e.toNat) with hemc
  set A := atomsOf ref nbr with hA
  set SL := runLoop sel ref.resids A (initState ref sel emc) with hSL
  have hAfst : A.map Prod.fst = ref.resids := map_fst_atomsOf ref nbr
  have hmem_fst : ∀ a ∈ A, a.1 ∈ ref.resids := by
    intro a ha
    rw [← hAfst]
    exact List.mem_map_of_mem Prod.fst ha
  have hpairw : List.Pairwise
      (fun a b => searchRank ref.resids a.1 ≠ searchRank ref.resids b.1) A := by
    have h1 : (A.map Prod.fst).Nodup := by
      rw [hAfst]
      exact hnd
    have h2 : List.Pairwise (fun a b : Nat × List Nat => a.1 ≠ b.1) A :=
      List.pairwise_map.1 h1
    exact pairwise_imp_mem A
      (fun a b ha hb hne =>
        searchRank_injOn ref.resids a.1 b.1 (hmem_fst a ha) (hmem_fst b hb) hne) h2
  have hlt : ∀ a ∈ A, searchRank ref.resids a.1 < nResidues ref := by
    intro a ha
    exact searchRank_lt_of_mem ref.resids a.1 (hmem_fst a ha)
  have hnear : ∀ a ∈ A, a.2.Nodup ∧ ∀ j ∈ a.2, j < nAtoms sel := by
    intro a ha
    rw [hA] at ha
    unfold atomsOf at ha
    rcases List.mem_map.1 ha with ⟨i, _, he⟩
    rw [← he]
    exact hv i
  have hn_atm : nResidues ref = nAtoms ref := by
    unfold nResidues nAtoms
    exact length_uniqueSorted_of_nodup ref.resids hnd
  have hAlen : A.length = nResidues ref := by
    rw [hA, atomsOf_length, hn_atm]
  have hperm := c7_loop sel ref.resids (nResidues ref) (nAtoms sel) A
    (initState ref sel emc) [] [] (nResidues ref) (nResidues ref)
    hpairw hlt (fun a ha => (hnear a ha).1) (fun a ha => (hnear a ha).2)
    (by show (List.replicate (nResidues ref) 0).length = _; simp)
    (by show (List.replicate (nResidues ref) 0).length = _; simp)
    (le_of_eq hAlen) (le_of_eq hAlen)
    (by
      show (List.replicate (nResidues ref) 0).Perm ([] ++ List.replicate (nResidues ref) 0)
      rw [List.nil_append])
    (by
      show (List.replicate (nResidues ref) 0).Perm ([] ++ List.replicate (nResidues ref) 0)
      rw [List.nil_append])
    (fun a _ => getD_replicate_zero _ _)
    (fun a _ => getD_replicate_zero _ _)
    (fun a ha s hs => by
      show ((List.replicate (nResidues ref) (List.replicate (nAtoms sel) true)).getD
        (searchRank ref.resids a.1) []).getD s false = true
      rw [getD_replicate_self, if_pos (hlt a ha), getD_replicate_self, if_pos hs])
  rw [hAlen, Nat.sub_self] at hperm
  simp only [List.replicate_zero, List.append_nil, List.nil_append] at hperm
  have hperm_tot : SL.refres_selatm_tot.Perm (A.map (fun a => a.2.length)) := by
    have h := hperm.1
    rw [← hSL] at h
    exact h
  have hperm_diff : SL.refres_diff_selatm.Perm (A.map (fun a => a.2.length)) := by
    have h := hperm.2
    rw [← hSL] at h
    exact h
  have hres_pos : 0 < nResidues ref := nResidues_pos ref href
  have hlen_tot : SL.refres_selatm_tot.length = nResidues ref := by
    rw [hSL, runLoop_tot_length]
    show (List.replicate (nResidues ref) 0).length = _
    simp
  have hlen_diff : SL.refres_diff_selatm.length = nResidues ref := by
    rw [hSL, runLoop_diff_selatm_length]
    show (List.replicate (nResidues ref) 0).length = _
    simp
  have hne_tot : SL.refres_selatm_tot ≠ [] := by
    intro he
    rw [he] at hlen_tot
    simp at hlen_tot
    omega
  have hne_diff : SL.refres_diff_selatm ≠ [] := by
    intro he
    rw [he] at hlen_diff
    simp at hlen_diff
    omega
  have hview_atm : ∀ i, SL.refatm_selatm.getD i 0 =
      (A.map (fun a => a.2.length)).count i := by
    intro i
    rw [hSL, runLoop_selatm_getD]
    show (List.replicate emc 0).getD i 0 + _ = _
    rw [getD_replicate_zero]
    omega
  have hL_tot : (post_tot_sa SL).length ≤ finalLen ref SL := by
    unfold finalLen
    apply le_maxL
    simp
  have hL_diff : (post_diff_sa SL).length ≤ finalLen ref SL := by
    unfold finalLen
    apply le_maxL
    simp
  have hL_atm : SL.refatm_selatm.length ≤ finalLen ref SL := by
    unfold finalLen
    apply le_maxL
    simp
  constructor
  · apply eq_of_getD
    · show (extend (post_diff_sa SL) (finalLen ref SL)).length =
        (extend SL.refatm_selatm (finalLen ref SL)).length
      rw [length_extend, length_extend, Nat.max_eq_right hL_diff, Nat.max_eq_right hL_atm]
    · intro i
      show (extend (post_diff_sa SL) (finalLen ref SL)).getD i 0 =
        (extend SL.refatm_selatm (finalLen ref SL)).getD i 0
      rw [getD_extend, getD_extend, hview_atm i]
      unfold post_diff_sa
      rw [getD_bincount _ hne_diff i]
      exact hperm_diff.count_eq i
  · apply eq_of_getD
    · show (extend (post_tot_sa SL) (finalLen ref SL)).length =
        (extend SL.refatm_selatm (finalLen ref SL)).length
      rw [length_extend, length_extend, Nat.max_eq_right hL_tot, Nat.max_eq_right hL_atm]
    · intro i
      show (extend (post_tot_sa SL) (finalLen ref SL)).getD i 0 =
        (extend SL.refatm_selatm (finalLen ref SL)).getD i 0
      rw [getD_extend, getD_extend, hview_atm i]
      unfold post_tot_sa
      rw [getD_bincount _ hne_tot i]
      exact hperm_tot.count_eq i

/-- Witness for C7 at the end-to-end example (both reference residues
are singletons there). -/
theorem c7_singleton_residues_witness :
    (contact_hist exRef exSel exNbr 1 16).2.refres_diff_selatm =
      (contact_hist exRef exSel exNbr 1 16).2.refatm_selatm ∧
    (contact_hist exRef exSel exNbr 1 16).2.refres_selatm_tot =
      (contact_hist exRef exSel exNbr 1 16).2.refatm_selatm := by
  apply c7_singleton_residues exRef exSel exNbr 1 16 (by decide) (by decide) (by decide)
    (by decide)
  intro i
  constructor
  · show (exNbr i).Nodup
    unfold exNbr
    split <;> decide
  · intro j hj
    show j < 3
    unfold exNbr at hj
    split at hj
    · simp at hj
      rcases hj with h | h <;> omega
    · simp at hj

/-- Witness for C5 at the end-to-end example (the refres-selatm matrix
is `[[1,1,0],[0,0,0]]`, the refres-selres matrix `[[2,0],[0,0]]`). -/
theorem c5_threshold_scan_witness :
    ((contact_hist exRef exSel exNbr 1 16).2.refres_same_selatm.getD 1 0 =
      specSameCount (loopStateOf exRef exSel exNbr 16).refres_selatm_pair
        (nResidues exRef) (nAtoms exSel) 1) ∧
    ((contact_hist exRef exSel exNbr 1 16).2.refres_same_selres.getD 2 0 =
      specSameCount (loopStateOf exRef exSel exNbr 16).refres_selres_pair
        (nResidues exRef) (nResidues exSel) 2) ∧
    ((contact_hist exRef exSel exNbr 1 16).2.refres_same_selatm.getD 0 0 =
      nResidues exRef - specBoundCount (loopStateOf exRef exSel exNbr 16).refres_selatm_pair
        (nResidues exRef) (nAtoms exSel)) := by
  have h := c5_threshold_scan exRef exSel exNbr 1 16 (by decide) (by decide) (by decide)
  exact ⟨h.1 1 (by decide) (by decide), h.2.2.1 2 (by decide) (by decide), h.2.1⟩

/-- Witness for C10 at the end-to-end example. -/
theorem c10_same_bounds_witness :
    (contact_hist exRef exSel exNbr 1 16).2.refatm_same_selres.getD 2 0 ≤ nAtoms exRef ∧
    (contact_hist exRef exSel exNbr 1 16).2.refres_same_selatm.getD 2 0 ≤ nResidues exRef ∧
    (contact_hist exRef exSel exNbr 1 16).2.refres_same_selres.getD 2 0 ≤ nResidues exRef :=
  c10_same_bounds exRef exSel exNbr 1 16 (by decide) (by decide) (by decide) 2

/-- Witness for C3 at the end-to-end example. -/
theorem c3_sum_invariants_witness :
    (contact_hist exRef exSel exNbr 1 16).2.refatm_selatm.sum = nAtoms exRef ∧
    (contact_hist exRef exSel exNbr 1 16).2.refatm_diff_selres.sum = nAtoms exRef ∧
    (contact_hist exRef exSel exNbr 1 16).2.refres_diff_selatm.sum = nResidues exRef ∧
    (contact_hist exRef exSel exNbr 1 16).2.refres_selatm_tot.sum = nResidues exRef ∧
    (contact_hist exRef exSel exNbr 1 16).2.refres_diff_selres.sum = nResidues exRef :=
  c3_sum_invariants exRef exSel exNbr 1 16 (by decide) (by decide) (by decide)
